import Mathlib

/-!
Shallow embedding of the hand-written lexical analyzer in `codigo.py`.

The scanner state of the Python class `Lexer` (fields `text`, `pos`, `line`,
`col`, `lettab`, `_letseq`) becomes the structure `Lexer`; methods that mutate
`self` become functions returning the updated state.  Python's `while` loops
become fuel-indexed structural recursions; the fuel supplied by the wrappers
(`rem`, the number of unread characters, plus a constant) is shown sufficient
by the lemmas below, so every definition evaluates by `decide`.  Character
classification (`isalpha`, `isdigit`, `isalnum`, `upper`) is modelled on the
ASCII fragment, which is the fragment the language and its tests use.
-/

/-- Reserved words of the language (the set `KEYWORDS` in the source). -/
def KEYWORDS : List String :=
  ["if", "else", "while", "for", "return",
   "int", "float", "void", "char", "bool",
   "true", "false", "break", "continue"]

/-- Two-character operator table (`OPERATORS_2` in the source); each key is
given as its two characters. -/
def OPERATORS_2 : List ((Char × Char) × String) :=
  [(('<', '='), "MEOI"),
   (('>', '='), "MAOI"),
   (('=', '='), "IGL"),
   (('!', '='), "DIS"),
   (('+', '+'), "INC"),
   (('-', '-'), "DEC"),
   (('+', '='), "MASIG"),
   (('-', '='), "MENOSIG"),
   (('*', '='), "MULIG"),
   (('/', '='), "DIVIG"),
   (('&', '&'), "LAND"),
   (('|', '|'), "LOR")]

/-- One-character operator table (`OPERATORS_1` in the source). -/
def OPERATORS_1 : List (Char × String) :=
  [('+', "MAS"),
   ('-', "MENOS"),
   ('*', "MUL"),
   ('/', "DIV"),
   ('%', "MOD"),
   ('<', "MEQ"),
   ('>', "MAQ"),
   ('=', "ES"),
   ('!', "NO"),
   (':', "DPTS")]

/-- Punctuation table (`PUNCT` in the source). -/
def PUNCT : List (Char × String) :=
  [(';', "PYC"),
   (',', "COMA"),
   ('(', "IPAREN"),
   (')', "DPAREN"),
   ('{', "ILLAVE"),
   ('}', "DLLAVE"),
   ('[', "ICOR"),
   (']', "DCOR"),
   ('.', "PUN")]

/-- The token record (`Token` dataclass in the source). -/
structure Token where
  type : String
  lexeme : String
  line : Nat
  col : Nat
  value : Option Nat := none
  lid : Option Nat := none
deriving DecidableEq, Repr

/-- The data carried by the `LexerError` exception: the offending character
(as the string returned by `peek`, empty past end of input) and the 1-based
line and column at which it was met. -/
structure LexError where
  ch : String
  line : Nat
  col : Nat
deriving DecidableEq, Repr

/-- Scanner state: the fields of the Python `Lexer` object.  `lettab` is the
identifier symbol table, kept as an insertion-ordered association list, and
`letseq` is the next id to hand out (`_letseq` in the source). -/
structure Lexer where
  text : List Char
  pos : Nat
  line : Nat
  col : Nat
  lettab : List (String × Nat)
  letseq : Nat
deriving DecidableEq, Repr

/-- The constructor `Lexer.__init__`. -/
def mkLexer (input : String) : Lexer :=
  ⟨input.data, 0, 1, 1, [], 0⟩

/-- Number of characters not yet consumed; used as loop fuel. -/
def Lexer.rem (s : Lexer) : Nat := s.text.length - s.pos

/-- Method `at_end`: `self.pos >= self.n`. -/
def Lexer.at_end (s : Lexer) : Bool := s.text.length ≤ s.pos

/-- Method `peek(k)`: the character at `pos + k`, or `none` past end of input
(the source returns the empty string there). -/
def Lexer.peek (s : Lexer) (k : Nat) : Option Char := s.text[s.pos + k]?

/-- Method `advance`: consume one character, maintaining the line/column
counters, and return the consumed character alongside the new state. -/
def Lexer.advance (s : Lexer) : Option Char × Lexer :=
  let ch := s.peek 0
  if ch = some '\n' then
    (ch, { s with pos := s.pos + 1, line := s.line + 1, col := 1 })
  else
    (ch, { s with pos := s.pos + 1, col := s.col + 1 })

/-- The line/column update performed by `advance` on consuming one
character, as a pure function on `(line, col)` pairs. -/
def stepPos : Nat × Nat → Char → Nat × Nat
  | (l, c), ch => if ch = '\n' then (l + 1, 1) else (l, c + 1)

/-- Fuel-indexed form of the `while not at_end and pred(peek()): advance()`
loops of the source: consume characters while `p` holds, returning the
consumed characters and the final state. -/
def advanceWhileF : Nat → (Char → Bool) → Lexer → List Char × Lexer
  | 0, _, s => ([], s)
  | f + 1, p, s =>
    match s.peek 0 with
    | some c =>
      if p c then
        let r := advanceWhileF f p (s.advance).2
        (c :: r.1, r.2)
      else ([], s)
    | none => ([], s)

/-- The consuming loop with its fuel fixed to the number of unread
characters, which `advanceWhileF_spec` shows is always enough. -/
def advanceWhile (p : Char → Bool) (s : Lexer) : List Char × Lexer :=
  advanceWhileF s.rem p s

/-- Membership in the whitespace string `" \t\r\n"` of the source. -/
def isWs (c : Char) : Bool := c == ' ' || c == '\t' || c == '\r' || c == '\n'

/-- One pass of the body of `skip_ws_and_comments`: skip a whitespace run,
then a `//` comment if one starts here; the boolean is the `moved` flag. -/
def skipPass (s : Lexer) : Bool × Lexer :=
  let r := advanceWhile isWs s
  let s1 := r.2
  let moved := !r.1.isEmpty
  if s1.peek 0 = some '/' ∧ s1.peek 1 = some '/' then
    (true, (advanceWhile (fun c => c != '\n') s1).2)
  else (moved, s1)

/-- Fuel-indexed form of the outer `while moved` loop of
`skip_ws_and_comments`. -/
def skipLoopF : Nat → Lexer → Lexer
  | 0, s => s
  | f + 1, s =>
    match skipPass s with
    | (true, s1) => skipLoopF f s1
    | (false, s1) => s1

/-- Method `skip_ws_and_comments`: drain whitespace and `//` comments.  The
fuel `rem + 1` is shown sufficient by `skipLoopF_stable`. -/
def skip_ws_and_comments (s : Lexer) : Lexer := skipLoopF (s.rem + 1) s

/-- Python's `str.upper()` on ASCII text: uppercase each character. -/
def pyUpper (s : String) : String := ⟨s.data.map Char.toUpper⟩

/-- Method `read_identifier_or_keyword`.  On a non-match the original state
is returned unchanged next to `none`, mirroring the `return None` paths. -/
def read_identifier_or_keyword (s : Lexer) : Option Token × Lexer :=
  match s.peek 0 with
  | some ch =>
    if ch.isAlpha || ch == '_' then
      let start_line := s.line
      let start_col := s.col
      let s1 := (s.advance).2
      let r := advanceWhile (fun c => c.isAlphanum || c == '_') s1
      let lex : String := ⟨ch :: r.1⟩
      let s2 := r.2
      if KEYWORDS.contains lex then
        (some ⟨"KW_" ++ pyUpper lex, lex, start_line, start_col, none, none⟩, s2)
      else
        let s3 :=
          if (List.lookup lex s2.lettab).isNone then
            { s2 with lettab := s2.lettab ++ [(lex, s2.letseq)], letseq := s2.letseq + 1 }
          else s2
        (some ⟨"ID", lex, start_line, start_col, none, List.lookup lex s3.lettab⟩, s3)
    else (none, s)
  | none => (none, s)

/-- Python's `int` applied to a non-empty string of decimal digits. -/
def pyInt (cs : List Char) : Nat :=
  cs.foldl (fun a c => 10 * a + (c.toNat - '0'.toNat)) 0

/-- Method `read_number`: a maximal run of decimal digits. -/
def read_number (s : Lexer) : Option Token × Lexer :=
  match s.peek 0 with
  | some ch =>
    if ch.isDigit then
      let start_line := s.line
      let start_col := s.col
      let s1 := (s.advance).2
      let r := advanceWhile Char.isDigit s1
      let lex : List Char := ch :: r.1
      (some ⟨"NUM", ⟨lex⟩, start_line, start_col, some (pyInt lex), none⟩, r.2)
    else (none, s)
  | none => (none, s)

/-- The one-character half of `read_operator_or_punct`: try `OPERATORS_1`,
then `PUNCT`, on the character under the cursor. -/
def read_op1_or_punct (s : Lexer) (start_line start_col : Nat) : Option Token × Lexer :=
  match s.peek 0 with
  | some c =>
    match List.lookup c OPERATORS_1 with
    | some ty => (some ⟨ty, String.singleton c, start_line, start_col, none, none⟩, (s.advance).2)
    | none =>
      match List.lookup c PUNCT with
      | some ty => (some ⟨ty, String.singleton c, start_line, start_col, none, none⟩, (s.advance).2)
      | none => (none, s)
  | none => (none, s)

/-- Method `read_operator_or_punct`: the two-character window is looked up
first; the source forms `peek() + peek(1)` as a string and tests membership
in `OPERATORS_2`, whose keys all have two characters, so a hit requires both
characters to exist, as the match here makes explicit. -/
def read_operator_or_punct (s : Lexer) : Option Token × Lexer :=
  match s.peek 0, s.peek 1 with
  | some c0, some c1 =>
    match List.lookup (c0, c1) OPERATORS_2 with
    | some ty =>
      (some ⟨ty, ⟨[c0, c1]⟩, s.line, s.col, none, none⟩, ((s.advance).2.advance).2)
    | none => read_op1_or_punct s s.line s.col
  | _, _ => read_op1_or_punct s s.line s.col

/-- The string `peek` returns, as the source would interpolate it into the
error message: one character, or empty past end of input. -/
def optStr : Option Char → String
  | some c => String.singleton c
  | none => ""

/-- Method `next_token`: skip trivia, emit `EOF` at end of input, otherwise
try the three recognizers in order and fail with a `LexerError` if none
matches. -/
def next_token (s0 : Lexer) : Except LexError (Token × Lexer) :=
  let s := skip_ws_and_comments s0
  if s.at_end then
    .ok (⟨"EOF", "", s.line, s.col, none, none⟩, s)
  else
    match read_identifier_or_keyword s with
    | (some t, s1) => .ok (t, s1)
    | (none, s1) =>
      match read_number s1 with
      | (some t, s2) => .ok (t, s2)
      | (none, s2) =>
        match read_operator_or_punct s2 with
        | (some t, s3) => .ok (t, s3)
        | (none, s3) => .error ⟨optStr (s3.peek 0), s3.line, s3.col⟩

/-- Fuel-indexed form of the `while True` loop of `tokenize`; `none` marks
fuel exhaustion (shown unreachable for the fuel used by `tokenize`). -/
def tokenizeF : Nat → Lexer → List Token → Option (Except LexError (List Token))
  | 0, _, _ => none
  | f + 1, s, acc =>
    match next_token s with
    | .error e => some (.error e)
    | .ok (t, s') =>
      if t.type = "EOF" then some (.ok (acc ++ [t]))
      else tokenizeF f s' (acc ++ [t])

/-- Method `tokenize`: collect tokens until the `EOF` marker. -/
def tokenize (s : Lexer) : Option (Except LexError (List Token)) :=
  tokenizeF (s.rem + 1) s []

/-- Scan a whole input string, as the command-line driver does. -/
def lexText (input : String) : Option (Except LexError (List Token)) :=
  tokenize (mkLexer input)

deriving instance DecidableEq for Except

/-- The maximal run of identifier-continuation characters that follows the
character under the cursor. -/
def identTail (s : Lexer) : List Char :=
  (s.text.drop (s.pos + 1)).takeWhile (fun c => c.isAlphanum || c == '_')

/-- The maximal run of decimal digits that follows the character under the
cursor. -/
def digitTail (s : Lexer) : List Char :=
  (s.text.drop (s.pos + 1)).takeWhile Char.isDigit

/-- Well-formedness of the symbol table: the ids stored in `lettab`, in
insertion order, are exactly `0, 1, ..., letseq - 1`.  This holds initially
and is preserved by every token read. -/
def tableWF (s : Lexer) : Prop :=
  s.lettab.map Prod.snd = List.range s.letseq

/-- Syntactic description of inputs consisting solely of whitespace and
single-line comments: a two-mode character scan, the flag recording whether
the cursor is inside a `//` comment. -/
def trivia_scan : Bool → List Char → Bool
  | _, [] => true
  | true, c :: cs => if c = '\n' then trivia_scan false cs else trivia_scan true cs
  | false, c :: cs =>
    if isWs c then trivia_scan false cs
    else if c = '/' then
      match cs with
      | c2 :: cs2 => c2 = '/' && trivia_scan true cs2
      | [] => false
    else false

/-- An input is pure trivia when the two-mode scan accepts it from outside a
comment. -/
def trivia_only (l : List Char) : Bool := trivia_scan false l

/-- Line/column bookkeeping for a whole run of consumed characters. -/
def posAfter (lc : Nat × Nat) (cs : List Char) : Nat × Nat := cs.foldl stepPos lc

/-! Basic facts about the cursor primitives. -/

theorem peek_eq_drop (s : Lexer) (k : Nat) : s.peek k = (s.text.drop s.pos)[k]? := by
  simp [Lexer.peek, List.getElem?_drop]

theorem peek_none_iff (s : Lexer) : s.peek 0 = none ↔ s.text.length ≤ s.pos := by
  simp [Lexer.peek, List.getElem?_eq_none_iff]

theorem at_end_iff (s : Lexer) : s.at_end = true ↔ s.text.length ≤ s.pos := by
  simp [Lexer.at_end]

theorem peek_some_lt (s : Lexer) (c : Char) (h : s.peek 0 = some c) :
    s.pos < s.text.length := by
  rcases List.getElem?_eq_some_iff.mp h with ⟨hlt, _⟩
  simpa using hlt

theorem drop_eq_cons_of_peek (s : Lexer) (c : Char) (h : s.peek 0 = some c) :
    s.text.drop s.pos = c :: s.text.drop (s.pos + 1) := by
  have hlt : s.pos < s.text.length := peek_some_lt s c h
  have h' : s.text[s.pos]? = some c := by simpa [Lexer.peek] using h
  have h2 : s.text[s.pos] = c := by
    rw [List.getElem?_eq_getElem hlt] at h'
    exact Option.some.inj h'
  rw [List.drop_eq_getElem_cons hlt, h2]

theorem advance_snd_some (s : Lexer) (c : Char) (h : s.peek 0 = some c) :
    (s.advance).2 = ⟨s.text, s.pos + 1, (stepPos (s.line, s.col) c).1,
      (stepPos (s.line, s.col) c).2, s.lettab, s.letseq⟩ := by
  by_cases hc : c = '\n'
  · subst hc; simp [Lexer.advance, h, stepPos]
  · simp [Lexer.advance, h, hc, stepPos]

/-- Master description of the consuming loop: it consumes exactly the
maximal run of characters satisfying `p` from the unread part of the text,
advancing position by the run's length and line/column by `stepPos`, and
touching nothing else. -/
theorem advanceWhileF_spec (p : Char → Bool) (f : Nat) (s : Lexer) (hf : s.rem ≤ f) :
    advanceWhileF f p s =
      ((s.text.drop s.pos).takeWhile p,
       ⟨s.text, s.pos + ((s.text.drop s.pos).takeWhile p).length,
        (((s.text.drop s.pos).takeWhile p).foldl stepPos (s.line, s.col)).1,
        (((s.text.drop s.pos).takeWhile p).foldl stepPos (s.line, s.col)).2,
        s.lettab, s.letseq⟩) := by
  induction f generalizing s with
  | zero =>
    have h0 : s.text.length ≤ s.pos := by
      have := hf; unfold Lexer.rem at this; omega
    have hd : s.text.drop s.pos = [] := List.drop_eq_nil_iff.mpr h0
    rw [advanceWhileF, hd]
    cases s; simp [List.takeWhile]
  | succ f ih =>
    match hp : s.peek 0 with
    | none =>
      have h0 : s.text.length ≤ s.pos := (peek_none_iff s).mp hp
      have hd : s.text.drop s.pos = [] := List.drop_eq_nil_iff.mpr h0
      rw [advanceWhileF, hp, hd]
      cases s; simp [List.takeWhile]
    | some c =>
      have hd : s.text.drop s.pos = c :: s.text.drop (s.pos + 1) :=
        drop_eq_cons_of_peek s c hp
      by_cases hpc : p c = true
      · have hlt : s.pos < s.text.length := peek_some_lt s c hp
        have hrem : ((s.advance).2).rem ≤ f := by
          rw [advance_snd_some s c hp]
          unfold Lexer.rem at hf ⊢
          simp only
          omega
        rw [advanceWhileF, hp]
        simp only [if_pos hpc]
        rw [ih _ hrem, advance_snd_some s c hp]
        simp only [hd, List.takeWhile_cons_of_pos hpc, List.length_cons, List.foldl_cons,
          Prod.mk.eta, Prod.mk.injEq, Lexer.mk.injEq]
        repeat' apply And.intro
        all_goals first | trivial | omega
      · rw [advanceWhileF, hp]
        simp only [if_neg hpc]
        rw [hd]
        cases s
        simp [List.takeWhile_cons_of_neg hpc]

/-- The wrapper `advanceWhile` always carries enough fuel, so it satisfies
the same description. -/
theorem advanceWhile_spec (p : Char → Bool) (s : Lexer) :
    advanceWhile p s =
      ((s.text.drop s.pos).takeWhile p,
       ⟨s.text, s.pos + ((s.text.drop s.pos).takeWhile p).length,
        (((s.text.drop s.pos).takeWhile p).foldl stepPos (s.line, s.col)).1,
        (((s.text.drop s.pos).takeWhile p).foldl stepPos (s.line, s.col)).2,
        s.lettab, s.letseq⟩) :=
  advanceWhileF_spec p s.rem s (le_refl _)

theorem length_takeWhile_le (p : Char → Bool) (l : List Char) :
    (l.takeWhile p).length ≤ l.length := by
  induction l with
  | nil => simp [List.takeWhile]
  | cons a l ih =>
    by_cases h : p a = true
    · rw [List.takeWhile_cons_of_pos h]
      simpa using ih
    · rw [List.takeWhile_cons_of_neg h]
      simp

theorem advanceWhile_nil (p : Char → Bool) (s : Lexer) (h : s.text.drop s.pos = []) :
    advanceWhile p s = ([], s) := by
  rw [advanceWhile_spec, h]
  cases s
  simp [List.takeWhile]

/-! Facts about one pass of the trivia skipper. -/

theorem skipPass_frame (s : Lexer) :
    (skipPass s).2.text = s.text ∧ (skipPass s).2.lettab = s.lettab ∧
    (skipPass s).2.letseq = s.letseq ∧ s.pos ≤ (skipPass s).2.pos ∧
    (skipPass s).2.pos ≤ max s.pos s.text.length := by
  have hwlen : ((s.text.drop s.pos).takeWhile isWs).length ≤ s.text.length - s.pos := by
    have h1 := length_takeWhile_le isWs (s.text.drop s.pos)
    simpa using h1
  unfold skipPass
  rw [advanceWhile_spec]
  dsimp only
  split
  · rw [advanceWhile_spec]
    dsimp only
    have h3 := length_takeWhile_le (fun c => c != '\n')
      (s.text.drop (s.pos + ((s.text.drop s.pos).takeWhile isWs).length))
    have h4 : (s.text.drop (s.pos + ((s.text.drop s.pos).takeWhile isWs).length)).length
        = s.text.length - (s.pos + ((s.text.drop s.pos).takeWhile isWs).length) :=
      List.length_drop _ _
    refine ⟨rfl, rfl, rfl, ?_, ?_⟩ <;> omega
  · dsimp only
    refine ⟨rfl, rfl, rfl, ?_, ?_⟩ <;> omega

/-- Consuming a comment (a maximal run of non-newline characters starting at
a `/`) always makes progress and stays within the text. -/
theorem comment_advance_progress (t : Lexer) (h : t.peek 0 = some '/') :
    t.pos < t.pos + ((t.text.drop t.pos).takeWhile (fun c => c != '\n')).length ∧
    t.pos + ((t.text.drop t.pos).takeWhile (fun c => c != '\n')).length ≤ t.text.length := by
  have hdrop := drop_eq_cons_of_peek t '/' h
  have htw : (t.text.drop t.pos).takeWhile (fun c => c != '\n')
      = '/' :: (t.text.drop (t.pos + 1)).takeWhile (fun c => c != '\n') := by
    rw [hdrop]
    exact List.takeWhile_cons_of_pos (by decide)
  have hlen := length_takeWhile_le (fun c => c != '\n') (t.text.drop (t.pos + 1))
  have hdl : (t.text.drop (t.pos + 1)).length = t.text.length - (t.pos + 1) :=
    List.length_drop _ _
  have hplt : t.pos < t.text.length := peek_some_lt t '/' h
  rw [htw]
  simp only [List.length_cons]
  omega

theorem skipPass_progress (s s1 : Lexer) (h : skipPass s = (true, s1)) :
    s.pos < s1.pos ∧ s1.pos ≤ s.text.length := by
  have hwlen : ((s.text.drop s.pos).takeWhile isWs).length ≤ s.text.length - s.pos := by
    simpa using length_takeWhile_le isWs (s.text.drop s.pos)
  unfold skipPass at h
  rw [advanceWhile_spec] at h
  dsimp only at h
  split at h
  · rename_i hc
    rw [advanceWhile_spec] at h
    dsimp only at h
    obtain ⟨hc0, hc1⟩ := hc
    have hsnd := congrArg Prod.snd h
    dsimp only at hsnd
    subst hsnd
    dsimp only
    have hcp := comment_advance_progress _ hc0
    dsimp only at hcp
    omega
  · have hfst := congrArg Prod.fst h
    dsimp only at hfst
    have hw : ¬ ((s.text.drop s.pos).takeWhile isWs) = [] := by
      intro hnil
      rw [hnil] at hfst
      simp at hfst
    have hwpos : 0 < ((s.text.drop s.pos).takeWhile isWs).length :=
      List.length_pos.mpr hw
    have hsnd := congrArg Prod.snd h
    dsimp only at hsnd
    subst hsnd
    dsimp only
    omega

theorem skipPass_false (s s1 : Lexer) (h : skipPass s = (false, s1)) : s1 = s := by
  unfold skipPass at h
  rw [advanceWhile_spec] at h
  dsimp only at h
  split at h
  · have hfst := congrArg Prod.fst h
    simp at hfst
  · have hfst := congrArg Prod.fst h
    dsimp only at hfst
    have hw : (s.text.drop s.pos).takeWhile isWs = [] := by
      simpa using hfst
    have hsnd := congrArg Prod.snd h
    dsimp only at hsnd
    rw [hw] at hsnd
    simp only [List.length_nil, List.foldl_nil, Nat.add_zero] at hsnd
    exact hsnd.symm

/-- The trivia-skipping loop is insensitive to its fuel once the fuel
exceeds the number of unread characters: the loop genuinely terminates. -/
theorem skipLoopF_congr (f : Nat) : ∀ (g : Nat) (s : Lexer), s.rem < f → s.rem < g →
    skipLoopF f s = skipLoopF g s := by
  induction f with
  | zero => intro g s hf hg; omega
  | succ f ih =>
    intro g s hf hg
    cases g with
    | zero => omega
    | succ g =>
      rw [skipLoopF, skipLoopF]
      rcases hsp : skipPass s with ⟨b, s1⟩
      cases b
      · rfl
      · have hprog := skipPass_progress s s1 hsp
        have htext : s1.text = s.text := by
          have := (skipPass_frame s).1
          rw [hsp] at this
          exact this
        have hrem : s1.rem < s.rem := by
          unfold Lexer.rem
          rw [htext]
          omega
        have h1 : s1.rem < f := by
          unfold Lexer.rem at hf hrem ⊢
          omega
        have h2 : s1.rem < g := by
          unfold Lexer.rem at hg hrem ⊢
          omega
        exact ih g s1 h1 h2

theorem skipLoopF_frame (f : Nat) : ∀ (s : Lexer),
    (skipLoopF f s).text = s.text ∧ (skipLoopF f s).lettab = s.lettab ∧
    (skipLoopF f s).letseq = s.letseq ∧ s.pos ≤ (skipLoopF f s).pos ∧
    (skipLoopF f s).pos ≤ max s.pos s.text.length := by
  induction f with
  | zero =>
    intro s
    rw [skipLoopF]
    exact ⟨rfl, rfl, rfl, Nat.le_refl _, Nat.le_max_left _ _⟩
  | succ f ih =>
    intro s
    rw [skipLoopF]
    rcases hsp : skipPass s with ⟨b, s1⟩
    have hframe := skipPass_frame s
    rw [hsp] at hframe
    dsimp only at hframe
    cases b
    · dsimp only
      have : s1 = s := skipPass_false s s1 hsp
      subst this
      exact ⟨rfl, rfl, rfl, Nat.le_refl _, Nat.le_max_left _ _⟩
    · dsimp only
      have hrec := ih s1
      refine ⟨?_, ?_, ?_, ?_, ?_⟩
      · rw [hrec.1, hframe.1]
      · rw [hrec.2.1, hframe.2.1]
      · rw [hrec.2.2.1, hframe.2.2.1]
      · have := hrec.2.2.2.1
        omega
      · have h5 := hrec.2.2.2.2
        rw [hframe.1] at h5
        omega

/-- Frame property of the whole trivia skipper: it only moves the cursor
forward within the text, never touching the text or the symbol table. -/
theorem skip_frame (s : Lexer) :
    (skip_ws_and_comments s).text = s.text ∧
    (skip_ws_and_comments s).lettab = s.lettab ∧
    (skip_ws_and_comments s).letseq = s.letseq ∧
    s.pos ≤ (skip_ws_and_comments s).pos ∧
    (skip_ws_and_comments s).pos ≤ max s.pos s.text.length :=
  skipLoopF_frame (s.rem + 1) s

/-- At end of input the trivia skipper does nothing at all. -/
theorem skip_at_end (s : Lexer) (h : s.text.length ≤ s.pos) :
    skip_ws_and_comments s = s := by
  have hd : s.text.drop s.pos = [] := List.drop_eq_nil_iff.mpr h
  have hsp : skipPass s = (false, s) := by
    unfold skipPass
    rw [advanceWhile_spec, hd]
    dsimp only [List.takeWhile]
    split
    · rename_i hc
      have hlt := peek_some_lt _ '/' hc.1
      dsimp only at hlt
      simp only [List.length_nil, Nat.add_zero] at hlt
      omega
    · simp
  have hrem : s.rem = 0 := by
    unfold Lexer.rem
    omega
  unfold skip_ws_and_comments
  rw [hrem, skipLoopF, hsp]

/-! Characterization of the three recognizers. -/

theorem read_number_spec (s : Lexer) (ch : Char) (hp : s.peek 0 = some ch)
    (hd : ch.isDigit = true) :
    read_number s =
      (some ⟨"NUM", ⟨ch :: digitTail s⟩, s.line, s.col, some (pyInt (ch :: digitTail s)), none⟩,
       ⟨s.text, s.pos + 1 + (digitTail s).length,
        ((ch :: digitTail s).foldl stepPos (s.line, s.col)).1,
        ((ch :: digitTail s).foldl stepPos (s.line, s.col)).2,
        s.lettab, s.letseq⟩) := by
  unfold read_number
  rw [hp]
  dsimp only
  rw [if_pos hd, advance_snd_some s ch hp, advanceWhile_spec]
  dsimp only [digitTail]
  simp only [List.foldl_cons, Prod.mk.eta, List.length_cons]

theorem read_ident_spec (s : Lexer) (ch : Char) (hp : s.peek 0 = some ch)
    (hc : (ch.isAlpha || ch == '_') = true) :
    read_identifier_or_keyword s =
      (if KEYWORDS.contains (⟨ch :: identTail s⟩ : String) then
        (some ⟨"KW_" ++ pyUpper (⟨ch :: identTail s⟩ : String), ⟨ch :: identTail s⟩,
          s.line, s.col, none, none⟩,
         ⟨s.text, s.pos + 1 + (identTail s).length,
          ((ch :: identTail s).foldl stepPos (s.line, s.col)).1,
          ((ch :: identTail s).foldl stepPos (s.line, s.col)).2,
          s.lettab, s.letseq⟩)
      else if (List.lookup (⟨ch :: identTail s⟩ : String) s.lettab).isNone then
        (some ⟨"ID", ⟨ch :: identTail s⟩, s.line, s.col, none, some s.letseq⟩,
         ⟨s.text, s.pos + 1 + (identTail s).length,
          ((ch :: identTail s).foldl stepPos (s.line, s.col)).1,
          ((ch :: identTail s).foldl stepPos (s.line, s.col)).2,
          s.lettab ++ [(⟨ch :: identTail s⟩, s.letseq)], s.letseq + 1⟩)
      else
        (some ⟨"ID", ⟨ch :: identTail s⟩, s.line, s.col, none,
           List.lookup (⟨ch :: identTail s⟩ : String) s.lettab⟩,
         ⟨s.text, s.pos + 1 + (identTail s).length,
          ((ch :: identTail s).foldl stepPos (s.line, s.col)).1,
          ((ch :: identTail s).foldl stepPos (s.line, s.col)).2,
          s.lettab, s.letseq⟩)) := by
  unfold read_identifier_or_keyword
  rw [hp]
  dsimp only
  rw [if_pos hc, advance_snd_some s ch hp, advanceWhile_spec]
  dsimp only [identTail]
  simp only [List.foldl_cons, Prod.mk.eta, List.length_cons]
  split
  · rfl
  · split
    · rename_i hnew
      rw [List.lookup_append]
      simp only [Option.isNone_iff_eq_none] at hnew
      rw [hnew]
      simp [List.lookup]
    · rfl

theorem read_op2_spec (s : Lexer) (c0 c1 : Char) (ty : String)
    (h0 : s.peek 0 = some c0) (h1 : s.peek 1 = some c1)
    (hlk : List.lookup (c0, c1) OPERATORS_2 = some ty) :
    read_operator_or_punct s =
      (some ⟨ty, ⟨[c0, c1]⟩, s.line, s.col, none, none⟩,
       ⟨s.text, s.pos + 2,
        ([c0, c1].foldl stepPos (s.line, s.col)).1,
        ([c0, c1].foldl stepPos (s.line, s.col)).2,
        s.lettab, s.letseq⟩) := by
  unfold read_operator_or_punct
  rw [h0, h1]
  dsimp only
  rw [hlk]
  dsimp only
  rw [advance_snd_some s c0 h0]
  have h1' : (⟨s.text, s.pos + 1, (stepPos (s.line, s.col) c0).1,
      (stepPos (s.line, s.col) c0).2, s.lettab, s.letseq⟩ : Lexer).peek 0 = some c1 := by
    simp only [Lexer.peek]
    simpa [Lexer.peek] using h1
  rw [advance_snd_some _ c1 h1']
  simp only [List.foldl_cons, List.foldl_nil, Prod.mk.eta]

theorem read_op1_spec (s : Lexer) (c0 : Char) (ty : String)
    (h0 : s.peek 0 = some c0)
    (h2 : ∀ c1, s.peek 1 = some c1 → List.lookup (c0, c1) OPERATORS_2 = none)
    (hlk : List.lookup c0 OPERATORS_1 = some ty) :
    read_operator_or_punct s =
      (some ⟨ty, String.singleton c0, s.line, s.col, none, none⟩,
       ⟨s.text, s.pos + 1, (stepPos (s.line, s.col) c0).1,
        (stepPos (s.line, s.col) c0).2, s.lettab, s.letseq⟩) := by
  unfold read_operator_or_punct
  rcases hp1 : s.peek 1 with _ | c1
  · rw [h0]
    show read_op1_or_punct s s.line s.col = _
    simp only [read_op1_or_punct, h0, hlk]
    rw [advance_snd_some s c0 h0]
  · rw [h0]
    show (match List.lookup (c0, c1) OPERATORS_2 with
      | some ty =>
        (some (Token.mk ty (String.mk [c0, c1]) s.line s.col none none),
         ((s.advance).2.advance).2)
      | none => read_op1_or_punct s s.line s.col) = _
    rw [h2 c1 hp1]
    show read_op1_or_punct s s.line s.col = _
    simp only [read_op1_or_punct, h0, hlk]
    rw [advance_snd_some s c0 h0]

theorem read_punct_spec (s : Lexer) (c0 : Char) (ty : String)
    (h0 : s.peek 0 = some c0)
    (h2 : ∀ c1, s.peek 1 = some c1 → List.lookup (c0, c1) OPERATORS_2 = none)
    (hlk1 : List.lookup c0 OPERATORS_1 = none)
    (hlk : List.lookup c0 PUNCT = some ty) :
    read_operator_or_punct s =
      (some ⟨ty, String.singleton c0, s.line, s.col, none, none⟩,
       ⟨s.text, s.pos + 1, (stepPos (s.line, s.col) c0).1,
        (stepPos (s.line, s.col) c0).2, s.lettab, s.letseq⟩) := by
  unfold read_operator_or_punct
  rcases hp1 : s.peek 1 with _ | c1
  · rw [h0]
    show read_op1_or_punct s s.line s.col = _
    simp only [read_op1_or_punct, h0, hlk1, hlk]
    rw [advance_snd_some s c0 h0]
  · rw [h0]
    show (match List.lookup (c0, c1) OPERATORS_2 with
      | some ty =>
        (some (Token.mk ty (String.mk [c0, c1]) s.line s.col none none),
         ((s.advance).2.advance).2)
      | none => read_op1_or_punct s s.line s.col) = _
    rw [h2 c1 hp1]
    show read_op1_or_punct s s.line s.col = _
    simp only [read_op1_or_punct, h0, hlk1, hlk]
    rw [advance_snd_some s c0 h0]

/-! When a recognizer declines, it has consumed nothing: the returned state
is the argument state itself. -/

theorem read_ident_none_frame (s : Lexer) (h : (read_identifier_or_keyword s).1 = none) :
    (read_identifier_or_keyword s).2 = s := by
  rcases hp : s.peek 0 with _ | c
  · simp only [read_identifier_or_keyword, hp]
  · by_cases hc : (c.isAlpha || c == '_') = true
    · exfalso
      rw [read_ident_spec s c hp hc] at h
      split at h
      · simp at h
      · split at h <;> simp at h
    · have hc' : (c.isAlpha || c == '_') = false := by simpa using hc
      simp only [read_identifier_or_keyword, hp, hc']
      simp

theorem read_number_none_frame (s : Lexer) (h : (read_number s).1 = none) :
    (read_number s).2 = s := by
  rcases hp : s.peek 0 with _ | c
  · simp only [read_number, hp]
  · by_cases hd : c.isDigit = true
    · exfalso
      rw [read_number_spec s c hp hd] at h
      simp at h
    · have hd' : c.isDigit = false := by simpa using hd
      simp only [read_number, hp, hd']
      simp

theorem read_op1_none_frame (s : Lexer) (l0 c0 : Nat) (h : (read_op1_or_punct s l0 c0).1 = none) :
    (read_op1_or_punct s l0 c0).2 = s := by
  rcases hp : s.peek 0 with _ | c
  · simp only [read_op1_or_punct, hp]
  · rcases hl1 : List.lookup c OPERATORS_1 with _ | ty
    · rcases hlp : List.lookup c PUNCT with _ | ty
      · simp only [read_op1_or_punct, hp, hl1, hlp]
      · exfalso
        simp only [read_op1_or_punct, hp, hl1, hlp] at h
        simp at h
    · exfalso
      simp only [read_op1_or_punct, hp, hl1] at h
      simp at h

theorem read_op_none_frame (s : Lexer) (h : (read_operator_or_punct s).1 = none) :
    (read_operator_or_punct s).2 = s := by
  rcases hp0 : s.peek 0 with _ | c0
  · have hred : read_operator_or_punct s = read_op1_or_punct s s.line s.col := by
      simp only [read_operator_or_punct, hp0]
    rw [hred] at h ⊢
    exact read_op1_none_frame s _ _ h
  · rcases hp1 : s.peek 1 with _ | c1
    · have hred : read_operator_or_punct s = read_op1_or_punct s s.line s.col := by
        simp only [read_operator_or_punct, hp0, hp1]
      rw [hred] at h ⊢
      exact read_op1_none_frame s _ _ h
    · rcases hl2 : List.lookup (c0, c1) OPERATORS_2 with _ | ty
      · have hred : read_operator_or_punct s = read_op1_or_punct s s.line s.col := by
          simp only [read_operator_or_punct, hp0, hp1, hl2]
        rw [hred] at h ⊢
        exact read_op1_none_frame s _ _ h
      · exfalso
        rw [read_op2_spec s c0 c1 ty hp0 hp1 hl2] at h
        simp at h

theorem lookup_mem {α : Type} {β : Type} [BEq α] [LawfulBEq α] (l : List (α × β)) (k : α) (v : β)
    (h : List.lookup k l = some v) : (k, v) ∈ l := by
  induction l with
  | nil => simp [List.lookup] at h
  | cons p l ih =>
    rcases p with ⟨a, b⟩
    simp only [List.lookup] at h
    split at h
    · rename_i heq
      have hk : k = a := eq_of_beq heq
      have hv : b = v := Option.some.inj h
      subst hk
      subst hv
      exact List.mem_cons_self _ _
    · exact List.mem_cons_of_mem _ (ih h)

/-! Applicability conditions of the recognizers. -/

theorem read_ident_some_inv (s : Lexer) (t : Token) (s' : Lexer)
    (h : read_identifier_or_keyword s = (some t, s')) :
    ∃ ch, s.peek 0 = some ch ∧ (ch.isAlpha || ch == '_') = true := by
  rcases hp : s.peek 0 with _ | c
  · simp only [read_identifier_or_keyword, hp] at h
    simp at h
  · by_cases hc : (c.isAlpha || c == '_') = true
    · exact ⟨c, rfl, hc⟩
    · have hc' : (c.isAlpha || c == '_') = false := by simpa using hc
      simp only [read_identifier_or_keyword, hp, hc'] at h
      simp at h

theorem read_number_some_inv (s : Lexer) (t : Token) (s' : Lexer)
    (h : read_number s = (some t, s')) :
    ∃ ch, s.peek 0 = some ch ∧ ch.isDigit = true := by
  rcases hp : s.peek 0 with _ | c
  · simp only [read_number, hp] at h
    simp at h
  · by_cases hd : c.isDigit = true
    · exact ⟨c, rfl, hd⟩
    · have hd' : c.isDigit = false := by simpa using hd
      simp only [read_number, hp, hd'] at h
      simp at h

/-! Progress: a successful recognizer strictly advances the cursor and stays
inside the text, and never touches the text itself. -/

theorem read_ident_progress (s : Lexer) (t : Token) (s' : Lexer)
    (h : read_identifier_or_keyword s = (some t, s')) :
    s'.text = s.text ∧ s.pos < s'.pos ∧ s'.pos ≤ s.text.length := by
  obtain ⟨ch, hp, hc⟩ := read_ident_some_inv s t s' h
  rw [read_ident_spec s ch hp hc] at h
  have hlt : s.pos < s.text.length := peek_some_lt s ch hp
  have htl : (identTail s).length ≤ s.text.length - (s.pos + 1) := by
    have h1 := length_takeWhile_le (fun c => c.isAlphanum || c == '_') (s.text.drop (s.pos + 1))
    have h2 : (s.text.drop (s.pos + 1)).length = s.text.length - (s.pos + 1) :=
      List.length_drop _ _
    unfold identTail
    omega
  split at h
  · have hs' := congrArg Prod.snd h
    dsimp only at hs'
    subst hs'
    refine ⟨rfl, by dsimp only; omega, by dsimp only; omega⟩
  · split at h
    · have hs' := congrArg Prod.snd h
      dsimp only at hs'
      subst hs'
      refine ⟨rfl, by dsimp only; omega, by dsimp only; omega⟩
    · have hs' := congrArg Prod.snd h
      dsimp only at hs'
      subst hs'
      refine ⟨rfl, by dsimp only; omega, by dsimp only; omega⟩

theorem read_number_progress (s : Lexer) (t : Token) (s' : Lexer)
    (h : read_number s = (some t, s')) :
    s'.text = s.text ∧ s.pos < s'.pos ∧ s'.pos ≤ s.text.length := by
  obtain ⟨ch, hp, hd⟩ := read_number_some_inv s t s' h
  rw [read_number_spec s ch hp hd] at h
  have hlt : s.pos < s.text.length := peek_some_lt s ch hp
  have htl : (digitTail s).length ≤ s.text.length - (s.pos + 1) := by
    have h1 := length_takeWhile_le Char.isDigit (s.text.drop (s.pos + 1))
    have h2 : (s.text.drop (s.pos + 1)).length = s.text.length - (s.pos + 1) :=
      List.length_drop _ _
    unfold digitTail
    omega
  have hs' := congrArg Prod.snd h
  dsimp only at hs'
  subst hs'
  refine ⟨rfl, by dsimp only; omega, by dsimp only; omega⟩

theorem read_op1_progress (s : Lexer) (l0 c0 : Nat) (t : Token) (s' : Lexer)
    (h : read_op1_or_punct s l0 c0 = (some t, s')) :
    s'.text = s.text ∧ s.pos < s'.pos ∧ s'.pos ≤ s.text.length ∧
    s'.lettab = s.lettab ∧ s'.letseq = s.letseq := by
  rcases hp : s.peek 0 with _ | c
  · simp only [read_op1_or_punct, hp] at h
    simp at h
  · have hlt : s.pos < s.text.length := peek_some_lt s c hp
    rcases hl1 : List.lookup c OPERATORS_1 with _ | ty
    · rcases hlp : List.lookup c PUNCT with _ | ty
      · simp only [read_op1_or_punct, hp, hl1, hlp] at h
        simp at h
      · simp only [read_op1_or_punct, hp, hl1, hlp] at h
        have hs' := congrArg Prod.snd h
        dsimp only at hs'
        rw [advance_snd_some s c hp] at hs'
        subst hs'
        refine ⟨rfl, by dsimp only; omega, by dsimp only; omega, rfl, rfl⟩
    · simp only [read_op1_or_punct, hp, hl1] at h
      have hs' := congrArg Prod.snd h
      dsimp only at hs'
      rw [advance_snd_some s c hp] at hs'
      subst hs'
      refine ⟨rfl, by dsimp only; omega, by dsimp only; omega, rfl, rfl⟩

theorem read_op_progress (s : Lexer) (t : Token) (s' : Lexer)
    (h : read_operator_or_punct s = (some t, s')) :
    s'.text = s.text ∧ s.pos < s'.pos ∧ s'.pos ≤ s.text.length ∧
    s'.lettab = s.lettab ∧ s'.letseq = s.letseq := by
  rcases hp0 : s.peek 0 with _ | c0
  · have hred : read_operator_or_punct s = read_op1_or_punct s s.line s.col := by
      simp only [read_operator_or_punct, hp0]
    rw [hred] at h
    exact read_op1_progress s _ _ t s' h
  · rcases hp1 : s.peek 1 with _ | c1
    · have hred : read_operator_or_punct s = read_op1_or_punct s s.line s.col := by
        simp only [read_operator_or_punct, hp0, hp1]
      rw [hred] at h
      exact read_op1_progress s _ _ t s' h
    · rcases hl2 : List.lookup (c0, c1) OPERATORS_2 with _ | ty
      · have hred : read_operator_or_punct s = read_op1_or_punct s s.line s.col := by
          simp only [read_operator_or_punct, hp0, hp1, hl2]
        rw [hred] at h
        exact read_op1_progress s _ _ t s' h
      · rw [read_op2_spec s c0 c1 ty hp0 hp1 hl2] at h
        have hlt1 : s.pos + 1 < s.text.length := by
          rcases List.getElem?_eq_some_iff.mp hp1 with ⟨hl, _⟩
          exact hl
        have hs' := congrArg Prod.snd h
        dsimp only at hs'
        subst hs'
        refine ⟨rfl, by dsimp only; omega, by dsimp only; omega, rfl, rfl⟩

/-! Dispatch-level facts about `next_token`. -/

theorem next_token_eof_of_at_end (s0 : Lexer) (h : (skip_ws_and_comments s0).at_end = true) :
    next_token s0 = .ok
      (⟨"EOF", "", (skip_ws_and_comments s0).line, (skip_ws_and_comments s0).col, none, none⟩,
       skip_ws_and_comments s0) := by
  simp only [next_token]
  rw [if_pos h]

theorem next_token_progress (s0 : Lexer) (t : Token) (s' : Lexer)
    (h : next_token s0 = .ok (t, s')) (ht : ¬ t.type = "EOF") :
    s'.text = s0.text ∧ s0.pos < s'.pos ∧ s'.pos ≤ s0.text.length := by
  obtain ⟨hsktext, hsktab, hskseq, hskpos, hskbound⟩ := skip_frame s0
  simp only [next_token] at h
  by_cases hend : (skip_ws_and_comments s0).at_end = true
  · rw [if_pos hend] at h
    injection h with h'
    exfalso
    apply ht
    have := congrArg (fun p => (Prod.fst p).type) h'
    exact this.symm
  · rw [if_neg hend] at h
    rcases hri : read_identifier_or_keyword (skip_ws_and_comments s0) with ⟨o1, s1⟩
    rw [hri] at h
    cases o1 with
    | some tok =>
      dsimp only at h
      injection h with h'
      obtain ⟨h1, h2⟩ := Prod.mk.injEq .. |>.mp h'
      subst h1
      subst h2
      obtain ⟨ha, hb, hc⟩ := read_ident_progress _ tok s1 hri
      rw [hsktext] at ha hc
      exact ⟨ha, by omega, by omega⟩
    | none =>
      dsimp only at h
      have hs1 : s1 = skip_ws_and_comments s0 := by
        have := read_ident_none_frame (skip_ws_and_comments s0) (by rw [hri])
        rw [hri] at this
        exact this
      subst hs1
      rcases hrn : read_number (skip_ws_and_comments s0) with ⟨o2, s2⟩
      rw [hrn] at h
      cases o2 with
      | some tok =>
        dsimp only at h
        injection h with h'
        obtain ⟨h1, h2⟩ := Prod.mk.injEq .. |>.mp h'
        subst h1
        subst h2
        obtain ⟨ha, hb, hc⟩ := read_number_progress _ tok s2 hrn
        rw [hsktext] at ha hc
        exact ⟨ha, by omega, by omega⟩
      | none =>
        dsimp only at h
        have hs2 : s2 = skip_ws_and_comments s0 := by
          have := read_number_none_frame (skip_ws_and_comments s0) (by rw [hrn])
          rw [hrn] at this
          exact this
        subst hs2
        rcases hro : read_operator_or_punct (skip_ws_and_comments s0) with ⟨o3, s3⟩
        rw [hro] at h
        cases o3 with
        | some tok =>
          dsimp only at h
          injection h with h'
          obtain ⟨h1, h2⟩ := Prod.mk.injEq .. |>.mp h'
          subst h1
          subst h2
          obtain ⟨ha, hb, hc, _, _⟩ := read_op_progress _ tok s3 hro
          rw [hsktext] at ha hc
          exact ⟨ha, by omega, by omega⟩
        | none =>
          dsimp only at h
          exact absurd h (by simp)

/-! The token-collecting loop terminates: its fuel never matters once it
exceeds the number of unread characters, and it always produces a result. -/

theorem tokenizeF_stable (f : Nat) : ∀ (g : Nat) (s : Lexer) (acc : List Token),
    s.rem < f → s.rem < g → tokenizeF f s acc = tokenizeF g s acc := by
  induction f with
  | zero =>
    intro g s acc hf hg
    omega
  | succ f ih =>
    intro g s acc hf hg
    cases g with
    | zero => omega
    | succ g =>
      rw [tokenizeF, tokenizeF]
      rcases hnt : next_token s with e | p
      · rfl
      · rcases p with ⟨t, s'⟩
        dsimp only
        by_cases ht : t.type = "EOF"
        · rw [if_pos ht, if_pos ht]
        · rw [if_neg ht, if_neg ht]
          obtain ⟨ha, hb, hc⟩ := next_token_progress s t s' hnt ht
          have hrem : s'.rem < s.rem := by
            unfold Lexer.rem
            rw [ha]
            omega
          have h1 : s'.rem < f := by omega
          have h2 : s'.rem < g := by omega
          exact ih g s' (acc ++ [t]) h1 h2

theorem tokenizeF_total (f : Nat) : ∀ (s : Lexer) (acc : List Token), s.rem < f →
    (∃ e, tokenizeF f s acc = some (.error e)) ∨
    (∃ ts, tokenizeF f s acc = some (.ok ts) ∧ ∃ tl, ts = acc ++ tl ∧ tl ≠ [] ∧
      ∃ t, ts.getLast? = some t ∧ t.type = "EOF") := by
  induction f with
  | zero =>
    intro s acc hf
    omega
  | succ f ih =>
    intro s acc hf
    rw [tokenizeF]
    rcases hnt : next_token s with e | p
    · exact Or.inl ⟨e, rfl⟩
    · rcases p with ⟨t, s'⟩
      dsimp only
      by_cases ht : t.type = "EOF"
      · rw [if_pos ht]
        refine Or.inr ⟨acc ++ [t], rfl, [t], rfl, by simp, t, List.getLast?_concat _, ht⟩
      · rw [if_neg ht]
        obtain ⟨ha, hb, hc⟩ := next_token_progress s t s' hnt ht
        have hrem : s'.rem < f := by
          unfold Lexer.rem at hf ⊢
          rw [ha]
          omega
        rcases ih s' (acc ++ [t]) hrem with ⟨e, he⟩ | ⟨ts, hts, tl, htl, htlne, tk, hlast, htype⟩
        · exact Or.inl ⟨e, he⟩
        · refine Or.inr ⟨ts, hts, [t] ++ tl, ?_, by simp, tk, hlast, htype⟩
          rw [htl, List.append_assoc]

theorem next_token_error_iff (s0 : Lexer) (e : LexError) :
    next_token s0 = .error e ↔
      ((skip_ws_and_comments s0).at_end = false ∧
       (read_identifier_or_keyword (skip_ws_and_comments s0)).1 = none ∧
       (read_number (skip_ws_and_comments s0)).1 = none ∧
       (read_operator_or_punct (skip_ws_and_comments s0)).1 = none ∧
       e = ⟨optStr ((skip_ws_and_comments s0).peek 0), (skip_ws_and_comments s0).line,
            (skip_ws_and_comments s0).col⟩) := by
  simp only [next_token]
  cases hend : (skip_ws_and_comments s0).at_end with
  | true =>
    simp
  | false =>
    rw [if_neg (by simp : ¬ false = true)]
    rcases hri : read_identifier_or_keyword (skip_ws_and_comments s0) with ⟨o1, s1⟩
    cases o1 with
    | some tok =>
      dsimp only
      constructor
      · intro h
        exact absurd h (by simp)
      · rintro ⟨_, h2, _⟩
        simp at h2
    | none =>
      dsimp only
      have hs1 : s1 = skip_ws_and_comments s0 := by
        have := read_ident_none_frame (skip_ws_and_comments s0) (by rw [hri])
        rw [hri] at this
        exact this
      subst hs1
      rcases hrn : read_number (skip_ws_and_comments s0) with ⟨o2, s2⟩
      cases o2 with
      | some tok =>
        dsimp only
        constructor
        · intro h
          exact absurd h (by simp)
        · rintro ⟨_, _, h3, _⟩
          simp at h3
      | none =>
        dsimp only
        have hs2 : s2 = skip_ws_and_comments s0 := by
          have := read_number_none_frame (skip_ws_and_comments s0) (by rw [hrn])
          rw [hrn] at this
          exact this
        subst hs2
        rcases hro : read_operator_or_punct (skip_ws_and_comments s0) with ⟨o3, s3⟩
        cases o3 with
        | some tok =>
          dsimp only
          constructor
          · intro h
            exact absurd h (by simp)
          · rintro ⟨_, _, _, h4, _⟩
            simp at h4
        | none =>
          dsimp only
          have hs3 : s3 = skip_ws_and_comments s0 := by
            have := read_op_none_frame (skip_ws_and_comments s0) (by rw [hro])
            rw [hro] at this
            exact this
          subst hs3
          constructor
          · intro h
            injection h with h'
            exact ⟨rfl, rfl, rfl, rfl, h'.symm⟩
          · rintro ⟨_, _, _, _, he⟩
            rw [he]

/-! Tokens produced by the recognizers never carry the end-marker tag. -/

theorem kw_ne_eof (u : String) : ¬ ("KW_" ++ u = "EOF") := by
  intro h
  have hd := congrArg String.data h
  rw [String.data_append] at hd
  simp [String.data] at hd

theorem op2_values_ne_eof : ∀ p ∈ OPERATORS_2, ¬ (p.2 = "EOF") := by decide

theorem op1_values_ne_eof : ∀ p ∈ OPERATORS_1, ¬ (p.2 = "EOF") := by decide

theorem punct_values_ne_eof : ∀ p ∈ PUNCT, ¬ (p.2 = "EOF") := by decide

theorem read_ident_type_ne_eof (s : Lexer) (t : Token) (s' : Lexer)
    (h : read_identifier_or_keyword s = (some t, s')) : ¬ (t.type = "EOF") := by
  obtain ⟨ch, hp, hc⟩ := read_ident_some_inv s t s' h
  rw [read_ident_spec s ch hp hc] at h
  split at h
  · have h1 := congrArg Prod.fst h
    dsimp only at h1
    have h2 := Option.some.inj h1
    rw [← h2]
    exact kw_ne_eof _
  · split at h
    · have h1 := congrArg Prod.fst h
      dsimp only at h1
      have h2 := Option.some.inj h1
      rw [← h2]
      exact (by decide : ¬ ("ID" : String) = "EOF")
    · have h1 := congrArg Prod.fst h
      dsimp only at h1
      have h2 := Option.some.inj h1
      rw [← h2]
      exact (by decide : ¬ ("ID" : String) = "EOF")

theorem read_number_type_ne_eof (s : Lexer) (t : Token) (s' : Lexer)
    (h : read_number s = (some t, s')) : ¬ (t.type = "EOF") := by
  obtain ⟨ch, hp, hd⟩ := read_number_some_inv s t s' h
  rw [read_number_spec s ch hp hd] at h
  have h1 := congrArg Prod.fst h
  dsimp only at h1
  have h2 := Option.some.inj h1
  rw [← h2]
  exact (by decide : ¬ ("NUM" : String) = "EOF")

theorem read_op1_type_ne_eof (s : Lexer) (l0 c0 : Nat) (t : Token) (s' : Lexer)
    (h : read_op1_or_punct s l0 c0 = (some t, s')) : ¬ (t.type = "EOF") := by
  rcases hp : s.peek 0 with _ | c
  · simp only [read_op1_or_punct, hp] at h
    simp at h
  · rcases hl1 : List.lookup c OPERATORS_1 with _ | ty
    · rcases hlp : List.lookup c PUNCT with _ | ty
      · simp only [read_op1_or_punct, hp, hl1, hlp] at h
        simp at h
      · simp only [read_op1_or_punct, hp, hl1, hlp] at h
        have h1 := congrArg Prod.fst h
        dsimp only at h1
        have h2 := Option.some.inj h1
        rw [← h2]
        exact punct_values_ne_eof (c, ty) (lookup_mem PUNCT c ty hlp)
    · simp only [read_op1_or_punct, hp, hl1] at h
      have h1 := congrArg Prod.fst h
      dsimp only at h1
      have h2 := Option.some.inj h1
      rw [← h2]
      exact op1_values_ne_eof (c, ty) (lookup_mem OPERATORS_1 c ty hl1)

theorem read_op_type_ne_eof (s : Lexer) (t : Token) (s' : Lexer)
    (h : read_operator_or_punct s = (some t, s')) : ¬ (t.type = "EOF") := by
  rcases hp0 : s.peek 0 with _ | c0
  · have hred : read_operator_or_punct s = read_op1_or_punct s s.line s.col := by
      simp only [read_operator_or_punct, hp0]
    rw [hred] at h
    exact read_op1_type_ne_eof s _ _ t s' h
  · rcases hp1 : s.peek 1 with _ | c1
    · have hred : read_operator_or_punct s = read_op1_or_punct s s.line s.col := by
        simp only [read_operator_or_punct, hp0, hp1]
      rw [hred] at h
      exact read_op1_type_ne_eof s _ _ t s' h
    · rcases hl2 : List.lookup (c0, c1) OPERATORS_2 with _ | ty
      · have hred : read_operator_or_punct s = read_op1_or_punct s s.line s.col := by
          simp only [read_operator_or_punct, hp0, hp1, hl2]
        rw [hred] at h
        exact read_op1_type_ne_eof s _ _ t s' h
      · rw [read_op2_spec s c0 c1 ty hp0 hp1 hl2] at h
        have h1 := congrArg Prod.fst h
        dsimp only at h1
        have h2 := Option.some.inj h1
        rw [← h2]
        exact op2_values_ne_eof ((c0, c1), ty) (lookup_mem OPERATORS_2 (c0, c1) ty hl2)

/-- Inverting an `EOF` answer: it can only come from the end-of-input check,
so the returned state is the skipped state, which is at end of input. -/
theorem next_token_eof_inv (s0 : Lexer) (t : Token) (s' : Lexer)
    (h : next_token s0 = .ok (t, s')) (ht : t.type = "EOF") :
    s' = skip_ws_and_comments s0 ∧ (skip_ws_and_comments s0).at_end = true ∧
    t = ⟨"EOF", "", s'.line, s'.col, none, none⟩ := by
  simp only [next_token] at h
  by_cases hend : (skip_ws_and_comments s0).at_end = true
  · rw [if_pos hend] at h
    injection h with h'
    obtain ⟨h1, h2⟩ := Prod.mk.injEq .. |>.mp h'
    subst h2
    rw [← h1]
    exact ⟨rfl, hend, rfl⟩
  · exfalso
    rw [if_neg hend] at h
    rcases hri : read_identifier_or_keyword (skip_ws_and_comments s0) with ⟨o1, s1⟩
    rw [hri] at h
    cases o1 with
    | some tok =>
      dsimp only at h
      injection h with h'
      obtain ⟨h1, h2⟩ := Prod.mk.injEq .. |>.mp h'
      subst h1
      exact read_ident_type_ne_eof _ _ _ hri ht
    | none =>
      dsimp only at h
      rcases hrn : read_number s1 with ⟨o2, s2⟩
      rw [hrn] at h
      cases o2 with
      | some tok =>
        dsimp only at h
        injection h with h'
        obtain ⟨h1, h2⟩ := Prod.mk.injEq .. |>.mp h'
        subst h1
        exact read_number_type_ne_eof _ _ _ hrn ht
      | none =>
        dsimp only at h
        rcases hro : read_operator_or_punct s2 with ⟨o3, s3⟩
        rw [hro] at h
        cases o3 with
        | some tok =>
          dsimp only at h
          injection h with h'
          obtain ⟨h1, h2⟩ := Prod.mk.injEq .. |>.mp h'
          subst h1
          exact read_op_type_ne_eof _ _ _ hro ht
        | none =>
          dsimp only at h
          exact absurd h (by simp)

/-! Symbol-table evolution. -/

theorem read_ident_table (s : Lexer) (t : Token) (s' : Lexer)
    (h : read_identifier_or_keyword s = (some t, s')) :
    (s'.lettab = s.lettab ∧ s'.letseq = s.letseq) ∨
    (∃ k, List.lookup k s.lettab = none ∧
      s'.lettab = s.lettab ++ [(k, s.letseq)] ∧ s'.letseq = s.letseq + 1) := by
  obtain ⟨ch, hp, hc⟩ := read_ident_some_inv s t s' h
  rw [read_ident_spec s ch hp hc] at h
  split at h
  · have hs' := congrArg Prod.snd h
    dsimp only at hs'
    subst hs'
    exact Or.inl ⟨rfl, rfl⟩
  · split at h
    · rename_i hnew
      have hs' := congrArg Prod.snd h
      dsimp only at hs'
      subst hs'
      exact Or.inr ⟨⟨ch :: identTail s⟩, by simpa using hnew, rfl, rfl⟩
    · have hs' := congrArg Prod.snd h
      dsimp only at hs'
      subst hs'
      exact Or.inl ⟨rfl, rfl⟩

theorem read_number_table (s : Lexer) (t : Token) (s' : Lexer)
    (h : read_number s = (some t, s')) :
    s'.lettab = s.lettab ∧ s'.letseq = s.letseq := by
  obtain ⟨ch, hp, hd⟩ := read_number_some_inv s t s' h
  rw [read_number_spec s ch hp hd] at h
  have hs' := congrArg Prod.snd h
  dsimp only at hs'
  subst hs'
  exact ⟨rfl, rfl⟩

/-- One scanning step either leaves the symbol table unchanged or appends a
single fresh binding carrying the next sequence number. -/
theorem next_token_table (s0 : Lexer) (t : Token) (s' : Lexer)
    (h : next_token s0 = .ok (t, s')) :
    (s'.lettab = s0.lettab ∧ s'.letseq = s0.letseq) ∨
    (∃ k, List.lookup k s0.lettab = none ∧
      s'.lettab = s0.lettab ++ [(k, s0.letseq)] ∧ s'.letseq = s0.letseq + 1) := by
  obtain ⟨hsktext, hsktab, hskseq, hskpos, hskbound⟩ := skip_frame s0
  simp only [next_token] at h
  by_cases hend : (skip_ws_and_comments s0).at_end = true
  · rw [if_pos hend] at h
    injection h with h'
    obtain ⟨h1, h2⟩ := Prod.mk.injEq .. |>.mp h'
    subst h2
    exact Or.inl ⟨hsktab, hskseq⟩
  · rw [if_neg hend] at h
    rcases hri : read_identifier_or_keyword (skip_ws_and_comments s0) with ⟨o1, s1⟩
    rw [hri] at h
    cases o1 with
    | some tok =>
      dsimp only at h
      injection h with h'
      obtain ⟨h1, h2⟩ := Prod.mk.injEq .. |>.mp h'
      subst h2
      rcases read_ident_table _ tok s1 hri with ⟨ha, hb⟩ | ⟨k, hk, ha, hb⟩
      · exact Or.inl ⟨by rw [ha, hsktab], by rw [hb, hskseq]⟩
      · refine Or.inr ⟨k, by rw [← hsktab]; exact hk, ?_, ?_⟩
        · rw [ha, hsktab, hskseq]
        · rw [hb, hskseq]
    | none =>
      dsimp only at h
      have hs1 : s1 = skip_ws_and_comments s0 := by
        have := read_ident_none_frame (skip_ws_and_comments s0) (by rw [hri])
        rw [hri] at this
        exact this
      subst hs1
      rcases hrn : read_number (skip_ws_and_comments s0) with ⟨o2, s2⟩
      rw [hrn] at h
      cases o2 with
      | some tok =>
        dsimp only at h
        injection h with h'
        obtain ⟨h1, h2⟩ := Prod.mk.injEq .. |>.mp h'
        subst h2
        obtain ⟨ha, hb⟩ := read_number_table _ tok s2 hrn
        exact Or.inl ⟨by rw [ha, hsktab], by rw [hb, hskseq]⟩
      | none =>
        dsimp only at h
        have hs2 : s2 = skip_ws_and_comments s0 := by
          have := read_number_none_frame (skip_ws_and_comments s0) (by rw [hrn])
          rw [hrn] at this
          exact this
        subst hs2
        rcases hro : read_operator_or_punct (skip_ws_and_comments s0) with ⟨o3, s3⟩
        rw [hro] at h
        cases o3 with
        | some tok =>
          dsimp only at h
          injection h with h'
          obtain ⟨h1, h2⟩ := Prod.mk.injEq .. |>.mp h'
          subst h2
          obtain ⟨_, _, _, ha, hb⟩ := read_op_progress _ tok s3 hro
          exact Or.inl ⟨by rw [ha, hsktab], by rw [hb, hskseq]⟩
        | none =>
          dsimp only at h
          exact absurd h (by simp)

theorem tableWF_init (input : String) : tableWF (mkLexer input) := rfl

theorem next_token_tableWF (s0 : Lexer) (t : Token) (s' : Lexer)
    (h : next_token s0 = .ok (t, s')) (hwf : tableWF s0) : tableWF s' := by
  rcases next_token_table s0 t s' h with ⟨ha, hb⟩ | ⟨k, hk, ha, hb⟩
  · unfold tableWF
    rw [ha, hb]
    exact hwf
  · unfold tableWF at hwf ⊢
    rw [ha, hb, List.map_append, hwf, List.range_succ]
    rfl

theorem next_token_lookup_mono (s0 : Lexer) (t : Token) (s' : Lexer)
    (h : next_token s0 = .ok (t, s')) (k : String) (v : Nat)
    (hkv : List.lookup k s0.lettab = some v) : List.lookup k s'.lettab = some v := by
  rcases next_token_table s0 t s' h with ⟨ha, _⟩ | ⟨k', _, ha, _⟩
  · rw [ha]
    exact hkv
  · rw [ha, List.lookup_append, hkv]
    exact Option.or_some

theorem tableWF_distinct (s : Lexer) (hwf : tableWF s) :
    ∀ p ∈ s.lettab, ∀ q ∈ s.lettab, p.2 = q.2 → p = q := by
  have hnodup : (s.lettab.map Prod.snd).Nodup := by
    rw [hwf]
    exact List.nodup_range _
  exact fun p hp q hq => List.inj_on_of_nodup_map hnodup hp hq

theorem tableWF_length (s : Lexer) (hwf : tableWF s) : s.lettab.length = s.letseq := by
  have := congrArg List.length hwf
  simpa using this

theorem tableWF_id_lt (s : Lexer) (hwf : tableWF s) : ∀ p ∈ s.lettab, p.2 < s.letseq := by
  intro p hp
  have hmem : p.2 ∈ s.lettab.map Prod.snd := List.mem_map_of_mem _ hp
  rw [hwf] at hmem
  exact List.mem_range.mp hmem

/-! Pure-trivia inputs are skipped entirely. -/

theorem drop_length_takeWhile (p : Char → Bool) (m : List Char) :
    m.drop (m.takeWhile p).length = m.dropWhile p := by
  induction m with
  | nil => rfl
  | cons c cs ih =>
    by_cases hc : p c = true
    · rw [List.takeWhile_cons_of_pos hc, List.dropWhile_cons_of_pos hc]
      simpa using ih
    · rw [List.takeWhile_cons_of_neg hc, List.dropWhile_cons_of_neg hc]
      rfl

theorem dropWhile_head_false (p : Char → Bool) (l : List Char) (c : Char) (r : List Char)
    (h : l.dropWhile p = c :: r) : p c = false := by
  induction l with
  | nil => simp [List.dropWhile] at h
  | cons a as ih =>
    by_cases ha : p a = true
    · rw [List.dropWhile_cons_of_pos ha] at h
      exact ih h
    · rw [List.dropWhile_cons_of_neg ha] at h
      obtain ⟨rfl, _⟩ := List.cons.injEq .. |>.mp h
      simpa using ha

theorem trivia_scan_true_eq (l : List Char) :
    trivia_scan true l = trivia_scan false (l.dropWhile (fun c => c != '\n')) := by
  induction l with
  | nil => rfl
  | cons c cs ih =>
    by_cases hc : c = '\n'
    · subst hc
      rw [List.dropWhile_cons_of_neg (by simp)]
      have e1 : trivia_scan true ('\n' :: cs) = trivia_scan false cs := by
        rw [trivia_scan.eq_def]
        simp
      have e2 : trivia_scan false ('\n' :: cs) = trivia_scan false cs := by
        rw [trivia_scan.eq_def]
        simp [isWs]
      rw [e1, e2]
    · rw [List.dropWhile_cons_of_pos (by simpa using hc)]
      have e1 : trivia_scan true (c :: cs) = trivia_scan true cs := by
        rw [trivia_scan.eq_def]
        simp [hc]
      rw [e1]
      exact ih

theorem trivia_false_dropWhile_ws (l : List Char) (h : trivia_scan false l = true) :
    trivia_scan false (l.dropWhile isWs) = true := by
  induction l with
  | nil => exact h
  | cons c cs ih =>
    by_cases hc : isWs c = true
    · rw [List.dropWhile_cons_of_pos hc]
      apply ih
      rw [trivia_scan.eq_def] at h
      simp only [if_pos hc] at h
      exact h
    · rw [List.dropWhile_cons_of_neg hc]
      exact h

theorem trivia_false_head (c : Char) (r : List Char) (hws : isWs c = false)
    (h : trivia_scan false (c :: r) = true) :
    c = '/' ∧ ∃ cs2, r = '/' :: cs2 ∧ trivia_scan true cs2 = true := by
  rw [trivia_scan.eq_def] at h
  simp only [if_neg (by simp [hws] : ¬ isWs c = true)] at h
  by_cases hc : c = '/'
  · rw [if_pos hc] at h
    refine ⟨hc, ?_⟩
    rcases r with _ | ⟨c2, cs2⟩
    · simp at h
    · have h' : (decide (c2 = '/') && trivia_scan true cs2) = true := h
      rcases Bool.and_eq_true .. |>.mp h' with ⟨h1, h2⟩
      have hc2 : c2 = '/' := by simpa using h1
      subst hc2
      exact ⟨cs2, rfl, h2⟩
  · rw [if_neg hc] at h
    simp at h

theorem skipPass_at_end (s : Lexer) (h : s.text.length ≤ s.pos) :
    skipPass s = (false, s) := by
  have hd : s.text.drop s.pos = [] := List.drop_eq_nil_iff.mpr h
  unfold skipPass
  rw [advanceWhile_spec, hd]
  dsimp only [List.takeWhile]
  split
  · rename_i hc
    have hlt := peek_some_lt _ '/' hc.1
    dsimp only at hlt
    simp only [List.length_nil, Nat.add_zero] at hlt
    omega
  · simp

theorem drop_pos_add (s : Lexer) (p : Char → Bool) :
    s.text.drop (s.pos + ((s.text.drop s.pos).takeWhile p).length) =
      (s.text.drop s.pos).dropWhile p := by
  rw [← List.drop_drop, drop_length_takeWhile]

theorem skipPass_trivia (s : Lexer) (hpos : s.pos ≤ s.text.length)
    (hnil : ¬ s.text.drop s.pos = []) (htriv : trivia_only (s.text.drop s.pos) = true) :
    ∃ consumed : List Char, ¬ consumed = [] ∧
      s.pos + consumed.length ≤ s.text.length ∧
      trivia_only (s.text.drop (s.pos + consumed.length)) = true ∧
      posAfter (s.line, s.col) (s.text.drop s.pos) =
        posAfter (posAfter (s.line, s.col) consumed)
          (s.text.drop (s.pos + consumed.length)) ∧
      skipPass s = (true, ⟨s.text, s.pos + consumed.length,
        (posAfter (s.line, s.col) consumed).1, (posAfter (s.line, s.col) consumed).2,
        s.lettab, s.letseq⟩) := by
  have hsplit := List.takeWhile_append_dropWhile isWs (s.text.drop s.pos)
  have hdlen : (s.text.drop s.pos).length = s.text.length - s.pos := List.length_drop _ _
  have hwlen := length_takeWhile_le isWs (s.text.drop s.pos)
  have hdropw := drop_pos_add s isWs
  have htr1 : trivia_scan false ((s.text.drop s.pos).dropWhile isWs) = true :=
    trivia_false_dropWhile_ws _ htriv
  rcases hr1 : (s.text.drop s.pos).dropWhile isWs with _ | ⟨c, r2⟩
  · refine ⟨(s.text.drop s.pos).takeWhile isWs, ?_, ?_, ?_, ?_, ?_⟩
    · intro hweq
      rw [hweq, hr1] at hsplit
      exact hnil hsplit.symm
    · omega
    · rw [hdropw, hr1]
      rfl
    · have hsplit' : (s.text.drop s.pos).takeWhile isWs = s.text.drop s.pos := by
        rw [hr1] at hsplit
        simpa using hsplit
      have e1 : posAfter (s.line, s.col) (s.text.drop s.pos)
          = posAfter (s.line, s.col) ((s.text.drop s.pos).takeWhile isWs) :=
        congrArg _ hsplit'.symm
      rw [hdropw, hr1]
      exact e1
    · unfold skipPass
      rw [advanceWhile_spec]
      dsimp only
      have hpk : (⟨s.text, s.pos + ((s.text.drop s.pos).takeWhile isWs).length,
          (((s.text.drop s.pos).takeWhile isWs).foldl stepPos (s.line, s.col)).1,
          (((s.text.drop s.pos).takeWhile isWs).foldl stepPos (s.line, s.col)).2,
          s.lettab, s.letseq⟩ : Lexer).peek 0 = none := by
        rw [peek_eq_drop]
        dsimp only
        rw [hdropw, hr1]
        rfl
      rw [if_neg (by intro hcc; rw [hpk] at hcc; exact absurd hcc.1 (by simp))]
      have hwne : ¬ (s.text.drop s.pos).takeWhile isWs = [] := by
        intro hweq
        rw [hweq, hr1] at hsplit
        exact hnil hsplit.symm
      have hie : ((s.text.drop s.pos).takeWhile isWs).isEmpty = false := by
        simpa [List.isEmpty_iff] using hwne
      rw [hie]
      rfl
  · have hws : isWs c = false := dropWhile_head_false isWs _ c r2 hr1
    rw [hr1] at htr1
    obtain ⟨hc, cs2, hr2, htrue⟩ := trivia_false_head c r2 hws htr1
    subst hc
    subst hr2
    have t1 : List.takeWhile (fun x => x != '\n') ('/' :: cs2)
        = '/' :: List.takeWhile (fun x => x != '\n') cs2 :=
      List.takeWhile_cons_of_pos (by decide)
    have t2 : List.takeWhile (fun x => x != '\n') ('/' :: '/' :: cs2)
        = '/' :: List.takeWhile (fun x => x != '\n') ('/' :: cs2) :=
      List.takeWhile_cons_of_pos (by decide)
    have d1 : List.dropWhile (fun x => x != '\n') ('/' :: cs2)
        = List.dropWhile (fun x => x != '\n') cs2 :=
      List.dropWhile_cons_of_pos (by decide)
    have d2 : List.dropWhile (fun x => x != '\n') ('/' :: '/' :: cs2)
        = List.dropWhile (fun x => x != '\n') ('/' :: cs2) :=
      List.dropWhile_cons_of_pos (by decide)
    have hcm : ((s.text.drop s.pos).dropWhile isWs).takeWhile (fun x => x != '\n')
        = '/' :: '/' :: cs2.takeWhile (fun x => x != '\n') := by
      rw [hr1, t2, t1]
    have hr3 : ((s.text.drop s.pos).dropWhile isWs).dropWhile (fun x => x != '\n')
        = cs2.dropWhile (fun x => x != '\n') := by
      rw [hr1, d2, d1]
    have hcmlen := length_takeWhile_le (fun x => x != '\n') ((s.text.drop s.pos).dropWhile isWs)
    have hr1len : ((s.text.drop s.pos).dropWhile isWs).length
        = (s.text.drop s.pos).length - ((s.text.drop s.pos).takeWhile isWs).length := by
      have := congrArg List.length hsplit
      rw [List.length_append] at this
      omega
    refine ⟨(s.text.drop s.pos).takeWhile isWs
        ++ ((s.text.drop s.pos).dropWhile isWs).takeWhile (fun x => x != '\n'),
      ?_, ?_, ?_, ?_, ?_⟩
    · rw [hcm]
      simp
    · rw [List.length_append]
      omega
    · have hd2 : s.text.drop (s.pos + ((s.text.drop s.pos).takeWhile isWs
          ++ ((s.text.drop s.pos).dropWhile isWs).takeWhile (fun x => x != '\n')).length)
          = cs2.dropWhile (fun x => x != '\n') := by
        rw [List.length_append, ← Nat.add_assoc, ← List.drop_drop, drop_pos_add s isWs,
          drop_length_takeWhile, hr3]
      rw [hd2]
      unfold trivia_only
      rw [← trivia_scan_true_eq]
      exact htrue
    · have hd2 : s.text.drop (s.pos + ((s.text.drop s.pos).takeWhile isWs
          ++ ((s.text.drop s.pos).dropWhile isWs).takeWhile (fun x => x != '\n')).length)
          = cs2.dropWhile (fun x => x != '\n') := by
        rw [List.length_append, ← Nat.add_assoc, ← List.drop_drop, drop_pos_add s isWs,
          drop_length_takeWhile, hr3]
      have hfa : ∀ (pr : Nat × Nat) (l1 l2 : List Char),
          posAfter pr (l1 ++ l2) = posAfter (posAfter pr l1) l2 := by
        intro pr l1 l2
        unfold posAfter
        exact List.foldl_append _ _ _ _
      have hsplit2 := List.takeWhile_append_dropWhile (fun x => x != '\n')
        ((s.text.drop s.pos).dropWhile isWs)
      calc posAfter (s.line, s.col) (s.text.drop s.pos)
          = posAfter (s.line, s.col)
              ((s.text.drop s.pos).takeWhile isWs ++ (s.text.drop s.pos).dropWhile isWs) := by
            rw [hsplit]
        _ = posAfter (posAfter (s.line, s.col) ((s.text.drop s.pos).takeWhile isWs))
              ((s.text.drop s.pos).dropWhile isWs) := hfa _ _ _
        _ = posAfter (posAfter (s.line, s.col) ((s.text.drop s.pos).takeWhile isWs))
              (((s.text.drop s.pos).dropWhile isWs).takeWhile (fun x => x != '\n')
                ++ ((s.text.drop s.pos).dropWhile isWs).dropWhile (fun x => x != '\n')) := by
            rw [hsplit2]
        _ = posAfter (posAfter (posAfter (s.line, s.col) ((s.text.drop s.pos).takeWhile isWs))
              (((s.text.drop s.pos).dropWhile isWs).takeWhile (fun x => x != '\n')))
              (((s.text.drop s.pos).dropWhile isWs).dropWhile (fun x => x != '\n')) := hfa _ _ _
        _ = posAfter (posAfter (posAfter (s.line, s.col) ((s.text.drop s.pos).takeWhile isWs))
              (((s.text.drop s.pos).dropWhile isWs).takeWhile (fun x => x != '\n')))
              (cs2.dropWhile (fun x => x != '\n')) := by
            rw [hr3]
        _ = posAfter (posAfter (s.line, s.col) ((s.text.drop s.pos).takeWhile isWs
              ++ ((s.text.drop s.pos).dropWhile isWs).takeWhile (fun x => x != '\n')))
              (cs2.dropWhile (fun x => x != '\n')) := by
            rw [hfa]
        _ = posAfter (posAfter (s.line, s.col) ((s.text.drop s.pos).takeWhile isWs
              ++ ((s.text.drop s.pos).dropWhile isWs).takeWhile (fun x => x != '\n')))
              (s.text.drop (s.pos + ((s.text.drop s.pos).takeWhile isWs
                ++ ((s.text.drop s.pos).dropWhile isWs).takeWhile (fun x => x != '\n')).length)) := by
            rw [hd2]
    · unfold skipPass
      rw [advanceWhile_spec]
      dsimp only
      have hpk0 : (⟨s.text, s.pos + ((s.text.drop s.pos).takeWhile isWs).length,
          (((s.text.drop s.pos).takeWhile isWs).foldl stepPos (s.line, s.col)).1,
          (((s.text.drop s.pos).takeWhile isWs).foldl stepPos (s.line, s.col)).2,
          s.lettab, s.letseq⟩ : Lexer).peek 0 = some '/' := by
        rw [peek_eq_drop]
        dsimp only
        rw [hdropw, hr1]
        rfl
      have hpk1 : (⟨s.text, s.pos + ((s.text.drop s.pos).takeWhile isWs).length,
          (((s.text.drop s.pos).takeWhile isWs).foldl stepPos (s.line, s.col)).1,
          (((s.text.drop s.pos).takeWhile isWs).foldl stepPos (s.line, s.col)).2,
          s.lettab, s.letseq⟩ : Lexer).peek 1 = some '/' := by
        rw [peek_eq_drop]
        dsimp only
        rw [hdropw, hr1]
        simp
      rw [if_pos ⟨hpk0, hpk1⟩]
      rw [advanceWhile_spec]
      dsimp only
      rw [hdropw]
      refine congrArg _ ?_
      refine Lexer.mk.injEq .. |>.mpr ⟨rfl, ?_, ?_, ?_, rfl, rfl⟩
      · rw [List.length_append]
        omega
      · unfold posAfter
        rw [List.foldl_append, Prod.mk.eta]
      · unfold posAfter
        rw [List.foldl_append, Prod.mk.eta]

theorem skip_trivia_all (f : Nat) : ∀ (s : Lexer), s.rem < f → s.pos ≤ s.text.length →
    trivia_only (s.text.drop s.pos) = true →
    skipLoopF f s = ⟨s.text, s.text.length,
      (posAfter (s.line, s.col) (s.text.drop s.pos)).1,
      (posAfter (s.line, s.col) (s.text.drop s.pos)).2,
      s.lettab, s.letseq⟩ := by
  induction f with
  | zero =>
    intro s hf _ _
    omega
  | succ f ih =>
    intro s hf hpos htriv
    rw [skipLoopF]
    by_cases hnil : s.text.drop s.pos = []
    · have hpe : s.text.length ≤ s.pos := List.drop_eq_nil_iff.mp hnil
      rw [skipPass_at_end s hpe]
      dsimp only
      rw [hnil]
      cases s with
      | mk text pos line col lettab letseq =>
        dsimp only at hpe hpos ⊢
        have heq : pos = text.length := by omega
        subst heq
        rfl
    · obtain ⟨consumed, hcne, hbound, htriv2, hposAfter, hsp⟩ :=
        skipPass_trivia s hpos hnil htriv
      rw [hsp]
      dsimp only
      have hclen : 0 < consumed.length := List.length_pos.mpr hcne
      have hremlt : (⟨s.text, s.pos + consumed.length,
          (posAfter (s.line, s.col) consumed).1, (posAfter (s.line, s.col) consumed).2,
          s.lettab, s.letseq⟩ : Lexer).rem < f := by
        unfold Lexer.rem at hf ⊢
        dsimp only
        omega
      have hrec := ih ⟨s.text, s.pos + consumed.length,
        (posAfter (s.line, s.col) consumed).1, (posAfter (s.line, s.col) consumed).2,
        s.lettab, s.letseq⟩ hremlt hbound htriv2
      rw [hrec]
      dsimp only
      refine Lexer.mk.injEq .. |>.mpr ⟨rfl, rfl, ?_, ?_, rfl, rfl⟩
      · rw [Prod.mk.eta, ← hposAfter]
      · rw [Prod.mk.eta, ← hposAfter]

theorem skip_trivia (s : Lexer) (hpos : s.pos ≤ s.text.length)
    (htriv : trivia_only (s.text.drop s.pos) = true) :
    skip_ws_and_comments s = ⟨s.text, s.text.length,
      (posAfter (s.line, s.col) (s.text.drop s.pos)).1,
      (posAfter (s.line, s.col) (s.text.drop s.pos)).2,
      s.lettab, s.letseq⟩ :=
  skip_trivia_all (s.rem + 1) s (Nat.lt_succ_self _) hpos htriv

theorem pyInt_aux (cs : List Char) : ∀ acc : Nat,
    cs.foldl (fun a c => 10 * a + (c.toNat - '0'.toNat)) acc
      = acc * 10 ^ cs.length + Nat.ofDigits 10 ((cs.map (fun c => c.toNat - '0'.toNat)).reverse) := by
  induction cs with
  | nil =>
    intro acc
    simp [Nat.ofDigits_nil]
  | cons c cs ih =>
    intro acc
    rw [List.foldl_cons, ih, List.map_cons, List.reverse_cons, Nat.ofDigits_append]
    have h1 : Nat.ofDigits 10 [c.toNat - '0'.toNat] = c.toNat - '0'.toNat := by
      rw [Nat.ofDigits_cons, Nat.ofDigits_nil]
      ring
    rw [h1]
    have h2 : ((cs.map (fun c => c.toNat - '0'.toNat)).reverse).length = cs.length := by
      simp
    rw [h2, List.length_cons]
    ring

/-- Python's `int` on a digit string computes the standard base-10 value of
the digit sequence. -/
theorem pyInt_eq_ofDigits (cs : List Char) :
    pyInt cs = Nat.ofDigits 10 ((cs.map (fun c => c.toNat - '0'.toNat)).reverse) := by
  unfold pyInt
  rw [pyInt_aux]
  ring

theorem kw_ne_id (u : String) : ¬ ("KW_" ++ u = "ID") := by
  intro h
  have hd := congrArg String.data h
  rw [String.data_append] at hd
  simp [String.data] at hd

/-! Claim theorems. -/

/-- C1: the operator/punctuation recognizer consults the two-character table
first — on a hit it consumes exactly two characters and emits that table's
kind — and only otherwise the one-character operator table and then the
punctuation table, consuming exactly one character on a hit; consequently
scanning "==" yields one IGL token and never two ES tokens, while "= ="
yields two ES tokens. -/
theorem C1_operator_priority :
    (∀ (s : Lexer) (c0 c1 : Char) (ty : String), s.peek 0 = some c0 → s.peek 1 = some c1 →
      List.lookup (c0, c1) OPERATORS_2 = some ty →
      ∃ s', read_operator_or_punct s = (some ⟨ty, ⟨[c0, c1]⟩, s.line, s.col, none, none⟩, s') ∧
        s'.text = s.text ∧ s'.pos = s.pos + 2) ∧
    (∀ (s : Lexer) (c0 : Char) (ty : String), s.peek 0 = some c0 →
      (∀ c1, s.peek 1 = some c1 → List.lookup (c0, c1) OPERATORS_2 = none) →
      List.lookup c0 OPERATORS_1 = some ty →
      ∃ s', read_operator_or_punct s =
        (some ⟨ty, String.singleton c0, s.line, s.col, none, none⟩, s') ∧
        s'.text = s.text ∧ s'.pos = s.pos + 1) ∧
    (∀ (s : Lexer) (c0 : Char) (ty : String), s.peek 0 = some c0 →
      (∀ c1, s.peek 1 = some c1 → List.lookup (c0, c1) OPERATORS_2 = none) →
      List.lookup c0 OPERATORS_1 = none → List.lookup c0 PUNCT = some ty →
      ∃ s', read_operator_or_punct s =
        (some ⟨ty, String.singleton c0, s.line, s.col, none, none⟩, s') ∧
        s'.text = s.text ∧ s'.pos = s.pos + 1) ∧
    lexText "==" = some (.ok [⟨"IGL", "==", 1, 1, none, none⟩, ⟨"EOF", "", 1, 3, none, none⟩]) ∧
    lexText "= =" = some (.ok [⟨"ES", "=", 1, 1, none, none⟩, ⟨"ES", "=", 1, 3, none, none⟩,
      ⟨"EOF", "", 1, 4, none, none⟩]) := by
  refine ⟨?_, ?_, ?_, by decide, by decide⟩
  · intro s c0 c1 ty h0 h1 hlk
    exact ⟨_, read_op2_spec s c0 c1 ty h0 h1 hlk, rfl, rfl⟩
  · intro s c0 ty h0 h2 hlk
    exact ⟨_, read_op1_spec s c0 ty h0 h2 hlk, rfl, rfl⟩
  · intro s c0 ty h0 h2 hlk1 hlk
    exact ⟨_, read_punct_spec s c0 ty h0 h2 hlk1 hlk, rfl, rfl⟩

/-- Witness for C1: the two-character rule applied to the concrete input
"==" under the cursor at the start. -/
theorem C1_operator_priority_witness :
    ∃ s', read_operator_or_punct (mkLexer "==") =
      (some ⟨"IGL", "==", 1, 1, none, none⟩, s') ∧
      s'.text = (mkLexer "==").text ∧ s'.pos = (mkLexer "==").pos + 2 :=
  C1_operator_priority.1 (mkLexer "==") '=' '=' "IGL" rfl rfl (by decide)

/-- C8: each recognizer either produces a token or returns no token with the
scanner state (position, line, column, symbol table) completely unchanged. -/
theorem C8_recognizer_frame :
    (∀ s : Lexer, (read_identifier_or_keyword s).1 = none →
      (read_identifier_or_keyword s).2 = s) ∧
    (∀ s : Lexer, (read_number s).1 = none → (read_number s).2 = s) ∧
    (∀ s : Lexer, (read_operator_or_punct s).1 = none → (read_operator_or_punct s).2 = s) ∧
    (∀ (s : Lexer) (t : Token) (s' : Lexer),
      read_identifier_or_keyword s = (some t, s') → s.pos < s'.pos) ∧
    (∀ (s : Lexer) (t : Token) (s' : Lexer), read_number s = (some t, s') → s.pos < s'.pos) ∧
    (∀ (s : Lexer) (t : Token) (s' : Lexer),
      read_operator_or_punct s = (some t, s') → s.pos < s'.pos) := by
  refine ⟨read_ident_none_frame, read_number_none_frame, read_op_none_frame, ?_, ?_, ?_⟩
  · intro s t s' h
    exact (read_ident_progress s t s' h).2.1
  · intro s t s' h
    exact (read_number_progress s t s' h).2.1
  · intro s t s' h
    exact (read_op_progress s t s' h).2.1

/-- Witness for C8: on input "@" every recognizer declines and leaves the
freshly constructed scanner untouched. -/
theorem C8_recognizer_frame_witness :
    (read_identifier_or_keyword (mkLexer "@")).2 = mkLexer "@" ∧
    (read_number (mkLexer "@")).2 = mkLexer "@" ∧
    (read_operator_or_punct (mkLexer "@")).2 = mkLexer "@" :=
  ⟨C8_recognizer_frame.1 (mkLexer "@") (by decide),
   C8_recognizer_frame.2.1 (mkLexer "@") (by decide),
   C8_recognizer_frame.2.2.1 (mkLexer "@") (by decide)⟩

/-- C3: on an alphabetic-or-underscore start the identifier/keyword
recognizer consumes the maximal alphanumeric-or-underscore run, classifies a
reserved word (of which there are 14) as a `KW_`-uppercased keyword with no
symbol id, and any other lexeme as a generic `ID` with a symbol id attached
by table lookup-or-insert; "if" is a keyword while "ifx" is an identifier
with a fresh id, and "abc123" is one token. -/
theorem C3_identifier_recognizer :
    (∀ (s : Lexer) (ch : Char), s.peek 0 = some ch → (ch.isAlpha || ch == '_') = true →
      ∃ t s', read_identifier_or_keyword s = (some t, s') ∧
        t.lexeme = (⟨ch :: identTail s⟩ : String) ∧
        t.line = s.line ∧ t.col = s.col ∧
        s'.text = s.text ∧ s'.pos = s.pos + 1 + (identTail s).length ∧
        (KEYWORDS.contains t.lexeme = true →
          t.type = "KW_" ++ pyUpper t.lexeme ∧ t.lid = none) ∧
        (KEYWORDS.contains t.lexeme = false →
          t.type = "ID" ∧ t.lid = List.lookup t.lexeme s'.lettab ∧ t.lid.isSome = true)) ∧
    KEYWORDS.length = 14 ∧
    lexText "if" = some (.ok [⟨"KW_IF", "if", 1, 1, none, none⟩,
      ⟨"EOF", "", 1, 3, none, none⟩]) ∧
    lexText "ifx" = some (.ok [⟨"ID", "ifx", 1, 1, none, some 0⟩,
      ⟨"EOF", "", 1, 4, none, none⟩]) ∧
    lexText "abc123" = some (.ok [⟨"ID", "abc123", 1, 1, none, some 0⟩,
      ⟨"EOF", "", 1, 7, none, none⟩]) := by
  refine ⟨?_, by decide, by decide, by decide, by decide⟩
  intro s ch hp hc
  rw [read_ident_spec s ch hp hc]
  by_cases hkw : KEYWORDS.contains (⟨ch :: identTail s⟩ : String) = true
  · rw [if_pos hkw]
    refine ⟨_, _, rfl, rfl, rfl, rfl, rfl, rfl, ?_, ?_⟩
    · intro _
      exact ⟨rfl, rfl⟩
    · intro hfalse
      rw [hkw] at hfalse
      exact absurd hfalse (by simp)
  · rw [if_neg hkw]
    have hkw' : KEYWORDS.contains (⟨ch :: identTail s⟩ : String) = false := by
      simpa using hkw
    by_cases hnew : (List.lookup (⟨ch :: identTail s⟩ : String) s.lettab).isNone = true
    · rw [if_pos hnew]
      refine ⟨_, _, rfl, rfl, rfl, rfl, rfl, rfl, ?_, ?_⟩
      · intro htrue
        rw [hkw'] at htrue
        exact absurd htrue (by simp)
      · intro _
        refine ⟨rfl, ?_, rfl⟩
        dsimp only
        rw [List.lookup_append]
        have : List.lookup (⟨ch :: identTail s⟩ : String) s.lettab = none := by
          simpa using hnew
        rw [this]
        simp [List.lookup]
    · rw [if_neg hnew]
      refine ⟨_, _, rfl, rfl, rfl, rfl, rfl, rfl, ?_, ?_⟩
      · intro htrue
        rw [hkw'] at htrue
        exact absurd htrue (by simp)
      · intro _
        refine ⟨rfl, rfl, ?_⟩
        dsimp only
        rcases hlk : List.lookup (⟨ch :: identTail s⟩ : String) s.lettab with _ | v
        · rw [hlk] at hnew
          exact absurd Option.isNone_none hnew
        · rfl

/-- Witness for C3: the general clause applied to the input "ifx". -/
theorem C3_identifier_recognizer_witness :
    ∃ t s', read_identifier_or_keyword (mkLexer "ifx") = (some t, s') ∧
      t.lexeme = (⟨'i' :: identTail (mkLexer "ifx")⟩ : String) ∧
      t.line = (mkLexer "ifx").line ∧ t.col = (mkLexer "ifx").col ∧
      s'.text = (mkLexer "ifx").text ∧
      s'.pos = (mkLexer "ifx").pos + 1 + (identTail (mkLexer "ifx")).length ∧
      (KEYWORDS.contains t.lexeme = true →
        t.type = "KW_" ++ pyUpper t.lexeme ∧ t.lid = none) ∧
      (KEYWORDS.contains t.lexeme = false →
        t.type = "ID" ∧ t.lid = List.lookup t.lexeme s'.lettab ∧ t.lid.isSome = true) :=
  C3_identifier_recognizer.1 (mkLexer "ifx") 'i' rfl (by decide)

/-- C4: on a digit the number recognizer consumes the maximal digit run,
with lexeme exactly that run and literal value its exact decimal value;
"042" gives value 42 with lexeme "042". -/
theorem C4_number_recognizer :
    (∀ (s : Lexer) (ch : Char), s.peek 0 = some ch → ch.isDigit = true →
      ∃ s', read_number s = (some ⟨"NUM", ⟨ch :: digitTail s⟩, s.line, s.col,
          some (pyInt (ch :: digitTail s)), none⟩, s') ∧
        s'.text = s.text ∧ s'.pos = s.pos + 1 + (digitTail s).length) ∧
    (∀ cs : List Char,
      pyInt cs = Nat.ofDigits 10 ((cs.map (fun c => c.toNat - '0'.toNat)).reverse)) ∧
    lexText "042" = some (.ok [⟨"NUM", "042", 1, 1, some 42, none⟩,
      ⟨"EOF", "", 1, 4, none, none⟩]) := by
  refine ⟨?_, pyInt_eq_ofDigits, by decide⟩
  intro s ch hp hd
  exact ⟨_, read_number_spec s ch hp hd, rfl, rfl⟩

/-- Witness for C4: the digit-run clause applied to the input "042". -/
theorem C4_number_recognizer_witness :
    ∃ s', read_number (mkLexer "042") = (some ⟨"NUM", ⟨'0' :: digitTail (mkLexer "042")⟩,
        (mkLexer "042").line, (mkLexer "042").col,
        some (pyInt ('0' :: digitTail (mkLexer "042"))), none⟩, s') ∧
      s'.text = (mkLexer "042").text ∧
      s'.pos = (mkLexer "042").pos + 1 + (digitTail (mkLexer "042")).length :=
  C4_number_recognizer.1 (mkLexer "042") '0' rfl (by decide)

/-- C2: within one scan the symbol table assigns ids in insertion order from
0: a fresh spelling receives `letseq` (the number of spellings seen so far),
a repeated spelling reuses its stored id, existing bindings are never
changed, and two distinct spellings never share an id; scanning "x y x"
yields ids 0, 1, 0. -/
theorem C2_symbol_table :
    (∀ input : String, tableWF (mkLexer input)) ∧
    (∀ (s0 : Lexer) (t : Token) (s' : Lexer),
      next_token s0 = .ok (t, s') → tableWF s0 → tableWF s') ∧
    (∀ (s0 : Lexer) (t : Token) (s' : Lexer) (k : String) (v : Nat),
      next_token s0 = .ok (t, s') → List.lookup k s0.lettab = some v →
      List.lookup k s'.lettab = some v) ∧
    (∀ s : Lexer, tableWF s → ∀ p ∈ s.lettab, ∀ q ∈ s.lettab, p.2 = q.2 → p = q) ∧
    (∀ s : Lexer, tableWF s → s.lettab.length = s.letseq ∧ ∀ p ∈ s.lettab, p.2 < s.letseq) ∧
    (∀ (s : Lexer) (t : Token) (s' : Lexer),
      read_identifier_or_keyword s = (some t, s') → t.type = "ID" →
      (List.lookup t.lexeme s.lettab = none → t.lid = some s.letseq) ∧
      (∀ v, List.lookup t.lexeme s.lettab = some v → t.lid = some v)) ∧
    lexText "x y x" = some (.ok [⟨"ID", "x", 1, 1, none, some 0⟩,
      ⟨"ID", "y", 1, 3, none, some 1⟩, ⟨"ID", "x", 1, 5, none, some 0⟩,
      ⟨"EOF", "", 1, 6, none, none⟩]) := by
  refine ⟨fun input => tableWF_init input, next_token_tableWF, ?_, tableWF_distinct,
    fun s hwf => ⟨tableWF_length s hwf, tableWF_id_lt s hwf⟩, ?_, by decide⟩
  · intro s0 t s' k v h hkv
    exact next_token_lookup_mono s0 t s' h k v hkv
  · intro s t s' h htype
    obtain ⟨ch, hp, hc⟩ := read_ident_some_inv s t s' h
    rw [read_ident_spec s ch hp hc] at h
    split at h
    · exfalso
      have h1 := congrArg Prod.fst h
      dsimp only at h1
      have h2 := Option.some.inj h1
      rw [← h2] at htype
      exact kw_ne_id _ htype
    · split at h
      · rename_i hnew
        have h1 := congrArg Prod.fst h
        dsimp only at h1
        have h2 := Option.some.inj h1
        rw [← h2]
        dsimp only
        constructor
        · intro _
          rfl
        · intro v hv
          rw [hv] at hnew
          exact absurd hnew (by simp)
      · rename_i hnew
        have h1 := congrArg Prod.fst h
        dsimp only at h1
        have h2 := Option.some.inj h1
        rw [← h2]
        dsimp only
        constructor
        · intro hnone
          rw [hnone] at hnew
          exact absurd Option.isNone_none hnew
        · intro v hv
          rw [hv]

/-- Witness for C2: reading the identifier "x" with a fresh table assigns
the id 0, the table's first sequence number. -/
theorem C2_symbol_table_witness :
    (⟨"ID", "x", 1, 1, none, some 0⟩ : Token).lid = some (mkLexer "x").letseq ∧
    tableWF (mkLexer "x") :=
  ⟨(C2_symbol_table.2.2.2.2.2.1 (mkLexer "x") ⟨"ID", "x", 1, 1, none, some 0⟩
      (⟨['x'], 1, 1, 2, [("x", 0)], 1⟩ : Lexer) (by decide) rfl).1 (by decide),
   C2_symbol_table.1 "x"⟩

/-- C5: `next_token` raises a lexical error exactly when, after skipping
trivia and ruling out end of input, none of the three recognizers matches;
the error carries the offending character with its 1-based line and column,
and `tokenize` propagates it immediately without returning tokens; "a @ b"
fails with '@' at line 1, column 3. -/
theorem C5_lexical_error :
    (∀ (s0 : Lexer) (e : LexError),
      next_token s0 = .error e ↔
        ((skip_ws_and_comments s0).at_end = false ∧
         (read_identifier_or_keyword (skip_ws_and_comments s0)).1 = none ∧
         (read_number (skip_ws_and_comments s0)).1 = none ∧
         (read_operator_or_punct (skip_ws_and_comments s0)).1 = none ∧
         e = ⟨optStr ((skip_ws_and_comments s0).peek 0), (skip_ws_and_comments s0).line,
              (skip_ws_and_comments s0).col⟩)) ∧
    (∀ (f : Nat) (s : Lexer) (acc : List Token) (e : LexError),
      next_token s = .error e → tokenizeF (f + 1) s acc = some (.error e)) ∧
    lexText "a @ b" = some (.error ⟨"@", 1, 3⟩) := by
  refine ⟨next_token_error_iff, ?_, by decide⟩
  intro f s acc e h
  rw [tokenizeF, h]

/-- Witness for C5: the characterization instantiated on the input "@". -/
theorem C5_lexical_error_witness :
    next_token (mkLexer "@") = .error ⟨"@", 1, 1⟩ ∧
    tokenizeF 1 (mkLexer "@") [] = some (.error ⟨"@", 1, 1⟩) :=
  ⟨(C5_lexical_error.1 (mkLexer "@") ⟨"@", 1, 1⟩).mpr
      ⟨by decide, by decide, by decide, by decide, by decide⟩,
   C5_lexical_error.2.1 0 (mkLexer "@") [] ⟨"@", 1, 1⟩
     ((C5_lexical_error.1 (mkLexer "@") ⟨"@", 1, 1⟩).mpr
      ⟨by decide, by decide, by decide, by decide, by decide⟩)⟩

/-- C6: line starts at 1 and is incremented exactly on consuming a newline,
which resets column to 1; column starts at 1 and is incremented on any other
consumed character; every produced token carries the line/column of its
first character, captured before anything is consumed; "a\nbb" puts token
"a" at (1,1) and token "bb" at (2,1). -/
theorem C6_position_tracking :
    (∀ (s : Lexer) (c : Char), s.peek 0 = some c →
      (s.advance).2.pos = s.pos + 1 ∧
      (c = '\n' → (s.advance).2.line = s.line + 1 ∧ (s.advance).2.col = 1) ∧
      (¬ c = '\n' → (s.advance).2.line = s.line ∧ (s.advance).2.col = s.col + 1)) ∧
    (∀ input : String, (mkLexer input).line = 1 ∧ (mkLexer input).col = 1) ∧
    (∀ (s : Lexer) (t : Token) (s' : Lexer),
      read_identifier_or_keyword s = (some t, s') → t.line = s.line ∧ t.col = s.col) ∧
    (∀ (s : Lexer) (t : Token) (s' : Lexer),
      read_number s = (some t, s') → t.line = s.line ∧ t.col = s.col) ∧
    (∀ (s : Lexer) (t : Token) (s' : Lexer),
      read_operator_or_punct s = (some t, s') → t.line = s.line ∧ t.col = s.col) ∧
    lexText "a\nbb" = some (.ok [⟨"ID", "a", 1, 1, none, some 0⟩,
      ⟨"ID", "bb", 2, 1, none, some 1⟩, ⟨"EOF", "", 2, 3, none, none⟩]) := by
  refine ⟨?_, fun _ => ⟨rfl, rfl⟩, ?_, ?_, ?_, by decide⟩
  · intro s c hp
    rw [advance_snd_some s c hp]
    by_cases hc : c = '\n'
    · subst hc
      refine ⟨rfl, fun _ => ⟨by simp [stepPos], by simp [stepPos]⟩, fun hne => absurd rfl hne⟩
    · exact ⟨rfl, fun heq => absurd heq hc, fun _ => ⟨by simp [stepPos, hc], by simp [stepPos, hc]⟩⟩
  · intro s t s' h
    obtain ⟨ch, hp, hc⟩ := read_ident_some_inv s t s' h
    rw [read_ident_spec s ch hp hc] at h
    split at h
    · have h1 := congrArg Prod.fst h
      dsimp only at h1
      have h2 := Option.some.inj h1
      rw [← h2]
      exact ⟨rfl, rfl⟩
    · split at h
      · have h1 := congrArg Prod.fst h
        dsimp only at h1
        have h2 := Option.some.inj h1
        rw [← h2]
        exact ⟨rfl, rfl⟩
      · have h1 := congrArg Prod.fst h
        dsimp only at h1
        have h2 := Option.some.inj h1
        rw [← h2]
        exact ⟨rfl, rfl⟩
  · intro s t s' h
    obtain ⟨ch, hp, hd⟩ := read_number_some_inv s t s' h
    rw [read_number_spec s ch hp hd] at h
    have h1 := congrArg Prod.fst h
    dsimp only at h1
    have h2 := Option.some.inj h1
    rw [← h2]
    exact ⟨rfl, rfl⟩
  · intro s t s' h
    rcases hp0 : s.peek 0 with _ | c0
    · have hred : read_operator_or_punct s = read_op1_or_punct s s.line s.col := by
        simp only [read_operator_or_punct, hp0]
      rw [hred] at h
      simp only [read_op1_or_punct, hp0] at h
      simp at h
    · have hone : ∀ h' : read_op1_or_punct s s.line s.col = (some t, s'),
          t.line = s.line ∧ t.col = s.col := by
        intro h'
        rcases hl1 : List.lookup c0 OPERATORS_1 with _ | ty
        · rcases hlp : List.lookup c0 PUNCT with _ | ty
          · simp only [read_op1_or_punct, hp0, hl1, hlp] at h'
            simp at h'
          · simp only [read_op1_or_punct, hp0, hl1, hlp] at h'
            have h1 := congrArg Prod.fst h'
            dsimp only at h1
            have h2 := Option.some.inj h1
            rw [← h2]
            exact ⟨rfl, rfl⟩
        · simp only [read_op1_or_punct, hp0, hl1] at h'
          have h1 := congrArg Prod.fst h'
          dsimp only at h1
          have h2 := Option.some.inj h1
          rw [← h2]
          exact ⟨rfl, rfl⟩
      rcases hp1 : s.peek 1 with _ | c1
      · have hred : read_operator_or_punct s = read_op1_or_punct s s.line s.col := by
          simp only [read_operator_or_punct, hp0, hp1]
        rw [hred] at h
        exact hone h
      · rcases hl2 : List.lookup (c0, c1) OPERATORS_2 with _ | ty
        · have hred : read_operator_or_punct s = read_op1_or_punct s s.line s.col := by
            simp only [read_operator_or_punct, hp0, hp1, hl2]
          rw [hred] at h
          exact hone h
        · rw [read_op2_spec s c0 c1 ty hp0 hp1 hl2] at h
          have h1 := congrArg Prod.fst h
          dsimp only at h1
          have h2 := Option.some.inj h1
          rw [← h2]
          exact ⟨rfl, rfl⟩

/-- Witness for C6: consuming the newline in "\nx" moves the cursor to line
2, column 1. -/
theorem C6_position_tracking_witness :
    ((mkLexer "\nx").advance).2.pos = (mkLexer "\nx").pos + 1 ∧
    ((mkLexer "\nx").advance).2.line = (mkLexer "\nx").line + 1 ∧
    ((mkLexer "\nx").advance).2.col = 1 := by
  have h := C6_position_tracking.1 (mkLexer "\nx") '\n' rfl
  exact ⟨h.1, (h.2.1 rfl).1, (h.2.1 rfl).2⟩

/-- C7: any input consisting solely of whitespace and single-line comments
tokenizes to exactly one token, the end marker, positioned at the
line/column obtained by consuming every skipped character. -/
theorem C7_trivia_inputs :
    ∀ input : String, trivia_only input.data = true →
      lexText input = some (.ok [⟨"EOF", "", (posAfter (1, 1) input.data).1,
        (posAfter (1, 1) input.data).2, none, none⟩]) := by
  intro input htriv
  have hskip : skip_ws_and_comments (mkLexer input) = ⟨input.data, input.data.length,
      (posAfter (1, 1) input.data).1, (posAfter (1, 1) input.data).2, [], 0⟩ := by
    have h := skip_trivia (mkLexer input) (by simp [mkLexer]) (by simpa [mkLexer] using htriv)
    simpa [mkLexer] using h
  have hend : (skip_ws_and_comments (mkLexer input)).at_end = true := by
    rw [hskip]
    simp [Lexer.at_end]
  have hnt := next_token_eof_of_at_end (mkLexer input) hend
  rw [hskip] at hnt
  dsimp only at hnt
  unfold lexText tokenize
  rw [tokenizeF, hnt]
  dsimp only
  rw [if_pos rfl, List.nil_append]

/-- Witness for C7: the whitespace-and-comment input "  // hi" followed by a
newline and a tab-space line. -/
theorem C7_trivia_inputs_witness :
    lexText "  // hi\n\t " = some (.ok [⟨"EOF", "",
      (posAfter (1, 1) ("  // hi\n\t " : String).data).1,
      (posAfter (1, 1) ("  // hi\n\t " : String).data).2, none, none⟩]) :=
  C7_trivia_inputs "  // hi\n\t " (by decide)

/-- C9: for every input, scanning terminates: with fuel exceeding the input
length the collector is fuel-insensitive and always yields either a token
list ending in the end marker or a lexical error, and `peek` never fails,
returning the no-character sentinel past end of input. -/
theorem C9_termination :
    (∀ input : String,
      (∃ ts, lexText input = some (.ok ts) ∧ ∃ t, ts.getLast? = some t ∧ t.type = "EOF") ∨
      (∃ e, lexText input = some (.error e))) ∧
    (∀ (f : Nat) (s : Lexer), s.rem < f → tokenizeF f s [] = tokenize s) ∧
    (∀ (s : Lexer) (k : Nat), s.text.length ≤ s.pos + k → s.peek k = none) := by
  refine ⟨?_, ?_, ?_⟩
  · intro input
    rcases tokenizeF_total ((mkLexer input).rem + 1) (mkLexer input) [] (Nat.lt_succ_self _) with
      ⟨e, he⟩ | ⟨ts, hts, tl, htl, htlne, t, hlast, htype⟩
    · exact Or.inr ⟨e, he⟩
    · exact Or.inl ⟨ts, hts, t, hlast, htype⟩
  · intro f s hf
    exact tokenizeF_stable f (s.rem + 1) s [] hf (Nat.lt_succ_self _)
  · intro s k h
    simp [Lexer.peek, List.getElem?_eq_none_iff]
    omega

/-- Witness for C9: extra fuel does not change the scan of "ab", and peeking
past its end returns the sentinel. -/
theorem C9_termination_witness :
    tokenizeF 7 (mkLexer "ab") [] = tokenize (mkLexer "ab") ∧
    (mkLexer "ab").peek 5 = none :=
  ⟨C9_termination.2.1 7 (mkLexer "ab") (by decide),
   C9_termination.2.2 (mkLexer "ab") 5 (by decide)⟩

/-- C10: calling `next_token` again after it has returned the end marker
returns the same end-marker token with the same position, because the
end-of-input check is re-run on the unmoved cursor. -/
theorem C10_eof_idempotent :
    (∀ (s0 : Lexer) (t : Token) (s' : Lexer),
      next_token s0 = .ok (t, s') → t.type = "EOF" → next_token s' = .ok (t, s')) ∧
    next_token (mkLexer "") = .ok (⟨"EOF", "", 1, 1, none, none⟩, mkLexer "") := by
  refine ⟨?_, by decide⟩
  intro s0 t s' h ht
  obtain ⟨hs', hend, htok⟩ := next_token_eof_inv s0 t s' h ht
  have hend' : s'.text.length ≤ s'.pos := by
    rw [hs']
    exact (at_end_iff _).mp hend
  have hskip' : skip_ws_and_comments s' = s' := skip_at_end s' hend'
  have h2 := next_token_eof_of_at_end s' (by rw [hskip']; exact (at_end_iff _).mpr hend')
  rw [hskip'] at h2
  rw [h2, htok]

/-- Witness for C10: after the scan of "a" returns its end marker, another
call returns the same token again. -/
theorem C10_eof_idempotent_witness :
    next_token (⟨['a'], 1, 1, 2, [("a", 0)], 1⟩ : Lexer) =
      .ok (⟨"EOF", "", 1, 2, none, none⟩, ⟨['a'], 1, 1, 2, [("a", 0)], 1⟩) :=
  C10_eof_idempotent.1 (⟨['a'], 1, 1, 2, [("a", 0)], 1⟩ : Lexer)
    ⟨"EOF", "", 1, 2, none, none⟩
    (⟨['a'], 1, 1, 2, [("a", 0)], 1⟩ : Lexer) (by decide) rfl
